import Mathlib

/-!
# Lab1: sequential containers (`list.h`) and the analyzer facade (`TextAnalyzer.h`)

Shallow embedding of the C++ sources.

* `size_t` values are modelled as `Nat`.  The only arithmetic on them is `capacity * 2`,
  `currentSize + 1`, `count + 1`, `i + 1` (loop counters below a size) and `currentSize - 1`,
  `count - 1` (both behind a bounds check that forces the operand to be positive); a wrap
  needs a buffer of `2^63` slots or a chain of `2^64` nodes, which no allocation provides.
* A raw buffer `T*` is a `List T` whose length is the number of allocated slots
  (`nullptr` is the empty buffer).  Reading or writing outside the allocation, and
  dereferencing a null or dangling node pointer, is undefined behaviour in C++; the model
  makes it an explicit outcome `Error.undefined_behaviour`.
* Allocation (`new T[capacity]`, `new Node(val)`) always succeeds and yields fresh storage;
  exhaustion of memory is outside the scope of the design.
* A member function that mutates the container returns an `Outcome`: the exception thrown
  (if any) together with the state of the object at that point, so that "no partial
  mutation on failure" is a statement about the code and not about the embedding.
-/

namespace Lab1

/-- The two ways a call can fail to return normally: `std::out_of_range` is thrown, or the
call runs into undefined behaviour (out-of-bounds buffer access, bad pointer dereference). -/
inductive Error where
  | out_of_range
  | undefined_behaviour
  deriving DecidableEq, Repr

/-- Result of a `void` member function: `error = none` when it returned normally, and the
state of the object when control left the function. -/
structure Outcome (σ : Type) where
  error : Option Error
  state : σ

/-! ## `List<T>`: the abstract base class -/

/-- Member `List::swap` (list.h:70-77), the only virtual member with a body.  The pure-virtual
`size`, `get` and `set` it calls are supplied by the concrete class `L`. -/
def AbstractList.swap {L T : Type} (size : L → Nat) (get : L → Nat → Except Error T)
    (set : L → Nat → T → Outcome L) (s : L) (index1 index2 : Nat) : Outcome L :=
  if index1 ≥ size s ∨ index2 ≥ size s then ⟨some .out_of_range, s⟩
  else
    match get s index1 with
    | .error e => ⟨some e, s⟩
    | .ok temp =>
      match get s index2 with
      | .error e => ⟨some e, s⟩
      | .ok v2 =>
        match set s index1 v2 with
        | ⟨some e, s1⟩ => ⟨some e, s1⟩
        | ⟨none, s1⟩ => set s1 index2 temp

/-! ## `ArrayList<T>` -/

/-- Fields of `ArrayList<T>` (list.h:96-98). -/
structure ArrayList (T : Type) where
  data : List T
  currentSize : Nat
  capacity : Nat

namespace ArrayList

variable {T : Type}

/-- Raw write `buf[i] = v`; `none` when `i` is outside the allocation. -/
def store (buf : List T) (i : Nat) (v : T) : Option (List T) :=
  if i < buf.length then some (buf.set i v) else none

/-- The copy loop of `resize` (list.h:106-108):
`for (i = i0; i < i0 + k; ++i) newData[i] = data[i];` with `k` iterations left. -/
def copyLoop (data : List T) : Nat → Nat → List T → Option (List T)
  | 0, _, newData => some newData
  | k + 1, i, newData =>
    match data[i]? with
    | none => none
    | some v =>
      match store newData i v with
      | none => none
      | some newData1 => copyLoop data k (i + 1) newData1

/-- Member `ArrayList::resize` (list.h:103-111).  `new T[capacity]` yields `capacity`
default-initialised slots. -/
def resize [Inhabited T] (s : ArrayList T) : Option (ArrayList T) :=
  let capacity := if s.capacity = 0 then 10 else s.capacity * 2
  let newData : List T := List.replicate capacity default
  match copyLoop s.data s.currentSize 0 newData with
  | none => none
  | some newData1 => some { data := newData1, currentSize := s.currentSize, capacity := capacity }

/-- State before the constructor body runs:
`data(nullptr), currentSize(0), capacity(0)` (list.h:117). -/
def init : ArrayList T := { data := [], currentSize := 0, capacity := 0 }

/-- Constructor `ArrayList::ArrayList()` (list.h:117-119): the member initialisers, then `resize()`.
With `currentSize = 0` the copy loop does not run, so `resize` cannot fail here. -/
def new [Inhabited T] : ArrayList T :=
  match resize (init : ArrayList T) with
  | some s => s
  | none => init

/-- Member `ArrayList::add` (list.h:125-131). -/
def add [Inhabited T] (s : ArrayList T) (element : T) : Outcome (ArrayList T) :=
  match (if s.currentSize ≥ s.capacity then resize s else some s) with
  | none => ⟨some .undefined_behaviour, s⟩
  | some s1 =>
    match store s1.data s1.currentSize element with
    | none => ⟨some .undefined_behaviour, s1⟩
    | some d => ⟨none, { s1 with data := d, currentSize := s1.currentSize + 1 }⟩

/-- Member `ArrayList::get` (list.h:133-138). -/
def get (s : ArrayList T) (index : Nat) : Except Error T :=
  if index ≥ s.currentSize then .error .out_of_range
  else
    match s.data[index]? with
    | some v => .ok v
    | none => .error .undefined_behaviour

/-- The shift loop of `remove` (list.h:144-146):
`for (i = i0; i < i0 + k; ++i) data[i] = data[i + 1];` with `k` iterations left. -/
def shiftLoop : Nat → Nat → List T → Option (List T)
  | 0, _, data => some data
  | k + 1, i, data =>
    match data[i + 1]? with
    | none => none
    | some v =>
      match store data i v with
      | none => none
      | some data1 => shiftLoop k (i + 1) data1

/-- Member `ArrayList::remove` (list.h:140-148).  The loop runs for `i = index .. currentSize - 2`,
that is `currentSize - 1 - index` times. -/
def remove (s : ArrayList T) (index : Nat) : Outcome (ArrayList T) :=
  if index ≥ s.currentSize then ⟨some .out_of_range, s⟩
  else
    match shiftLoop (s.currentSize - 1 - index) index s.data with
    | none => ⟨some .undefined_behaviour, s⟩
    | some d => ⟨none, { s with data := d, currentSize := s.currentSize - 1 }⟩

/-- Member `ArrayList::size` (list.h:150-152). -/
def size (s : ArrayList T) : Nat := s.currentSize

/-- Member `ArrayList::isEmpty` (list.h:154-156). -/
def isEmpty (s : ArrayList T) : Bool := s.currentSize == 0

/-- Member `ArrayList::set` (list.h:158-163). -/
def set (s : ArrayList T) (index : Nat) (element : T) : Outcome (ArrayList T) :=
  if index ≥ s.currentSize then ⟨some .out_of_range, s⟩
  else
    match store s.data index element with
    | none => ⟨some .undefined_behaviour, s⟩
    | some d => ⟨none, { s with data := d }⟩

/-- Member `ArrayList::swap` (list.h:165-170).  `std::swap(a, b)` is
`tmp = a; a = b; b = tmp`. -/
def swap (s : ArrayList T) (index1 index2 : Nat) : Outcome (ArrayList T) :=
  if index1 ≥ s.currentSize ∨ index2 ≥ s.currentSize then ⟨some .out_of_range, s⟩
  else
    match s.data[index1]? with
    | none => ⟨some .undefined_behaviour, s⟩
    | some tmp =>
      match s.data[index2]? with
      | none => ⟨some .undefined_behaviour, s⟩
      | some b =>
        match store s.data index1 b with
        | none => ⟨some .undefined_behaviour, s⟩
        | some d1 =>
          match store d1 index2 tmp with
          | none => ⟨some .undefined_behaviour, { s with data := d1 }⟩
          | some d2 => ⟨none, { s with data := d2 }⟩

/-- The inherited `List::swap` run on an `ArrayList` object: what `swap` would do without
the override. -/
def defaultSwap (s : ArrayList T) (index1 index2 : Nat) : Outcome (ArrayList T) :=
  AbstractList.swap size get set s index1 index2

/-- Class invariant of `ArrayList`: `currentSize ≤ capacity` and `data` points to an
allocation of exactly `capacity` slots. -/
def WF (s : ArrayList T) : Prop :=
  s.currentSize ≤ s.capacity ∧ s.data.length = s.capacity

instance (s : ArrayList T) : Decidable s.WF := by unfold WF; infer_instance

/-- The logical content: the first `currentSize` slots of the buffer. -/
def toList (s : ArrayList T) : List T := s.data.take s.currentSize

/-- The well-formed object `s` holds exactly the elements `xs`, in order. -/
def Abs (s : ArrayList T) (xs : List T) : Prop := s.WF ∧ s.toList = xs

end ArrayList

/-! ## `LinkedList<T>` -/

/-- Struct `LinkedList<T>::Node` (list.h:183-188).  A `Node*` is an `Option Nat`: `none` is
`nullptr`, `some a` is the address `a` in the free store. -/
structure Node (T : Type) where
  value : T
  next : Option Nat
  prev : Option Nat

/-- The free store holding the nodes of one list: cell `a` is `some nd` while the node
at address `a` is live and `none` once it has been deleted. -/
structure Heap (T : Type) where
  cells : List (Option (Node T))

namespace Heap

variable {T : Type}

/-- Dereference `p`: `none` when `p` is null or does not point to a live node. -/
def read (h : Heap T) (p : Option Nat) : Option (Node T) :=
  match p with
  | none => none
  | some a =>
    match h.cells[a]? with
    | some (some nd) => some nd
    | _ => none

/-- Overwrite the node stored at address `a`. -/
def write (h : Heap T) (a : Nat) (nd : Node T) : Heap T :=
  ⟨h.cells.set a (some nd)⟩

/-- The expression `new Node(val)` (list.h:187): a node at a fresh address with both links null. -/
def alloc (h : Heap T) (val : T) : Nat × Heap T :=
  (h.cells.length, ⟨h.cells ++ [some ⟨val, none, none⟩]⟩)

/-- The statement `delete p`: `none` when `p` is not a live node. -/
def free (h : Heap T) (p : Option Nat) : Option (Heap T) :=
  match p, h.read p with
  | some a, some _ => some ⟨h.cells.set a none⟩
  | _, _ => none

/-- The assignment `p->next = q`. -/
def setNext (h : Heap T) (p q : Option Nat) : Option (Heap T) :=
  match p, h.read p with
  | some a, some nd => some (h.write a { nd with next := q })
  | _, _ => none

/-- The assignment `p->prev = q`. -/
def setPrev (h : Heap T) (p q : Option Nat) : Option (Heap T) :=
  match p, h.read p with
  | some a, some nd => some (h.write a { nd with prev := q })
  | _, _ => none

/-- The assignment `p->value = v`. -/
def setValue (h : Heap T) (p : Option Nat) (v : T) : Option (Heap T) :=
  match p, h.read p with
  | some a, some nd => some (h.write a { nd with value := v })
  | _, _ => none

/-- The traversal loop of `getNode` and `get` (list.h:197-199, 230-232):
`current = current->next` executed `k` times. -/
def advance (h : Heap T) : Nat → Option Nat → Option (Option Nat)
  | 0, current => some current
  | k + 1, current =>
    match h.read current with
    | none => none
    | some nd => advance h k nd.next

end Heap

/-- Fields of `LinkedList<T>` (list.h:190-192), with the free store its nodes live in. -/
structure LinkedList (T : Type) where
  heap : Heap T
  head : Option Nat
  tail : Option Nat
  count : Nat

namespace LinkedList

variable {T : Type}

/-- A default-constructed `LinkedList` (list.h:190-192): `head = tail = nullptr`,
`count = 0`, no node allocated. -/
def new : LinkedList T := { heap := ⟨[]⟩, head := none, tail := none, count := 0 }

/-- Member `LinkedList::size` (list.h:254-256). -/
def size (s : LinkedList T) : Nat := s.count

/-- Member `LinkedList::isEmpty` (list.h:258-260). -/
def isEmpty (s : LinkedList T) : Bool := s.count == 0

/-- Member `LinkedList::getNode` (list.h:194-201).  Outer `none`: undefined behaviour during the
walk; `some p`: the pointer returned. -/
def getNode (s : LinkedList T) (index : Nat) : Option (Option Nat) :=
  if index ≥ s.count then some none
  else s.heap.advance index s.head

/-- Member `LinkedList::add` (list.h:213-223). -/
def add (s : LinkedList T) (element : T) : Outcome (LinkedList T) :=
  let (newNode, h0) := s.heap.alloc element
  if s.isEmpty then
    ⟨none, { heap := h0, head := some newNode, tail := some newNode, count := s.count + 1 }⟩
  else
    match h0.setNext s.tail (some newNode) with
    | none => ⟨some .undefined_behaviour, { s with heap := h0 }⟩
    | some h1 =>
      match h1.setPrev (some newNode) s.tail with
      | none => ⟨some .undefined_behaviour, { s with heap := h1 }⟩
      | some h2 =>
        ⟨none, { heap := h2, head := s.head, tail := some newNode, count := s.count + 1 }⟩

/-- Member `LinkedList::get` (list.h:225-234). -/
def get (s : LinkedList T) (index : Nat) : Except Error T :=
  if index ≥ s.count then .error .out_of_range
  else
    match s.heap.advance index s.head with
    | none => .error .undefined_behaviour
    | some current =>
      match s.heap.read current with
      | none => .error .undefined_behaviour
      | some nd => .ok nd.value

/-- Lines 244-245 of `remove`:
`if (toDelete->prev) toDelete->prev->next = toDelete->next; else head = toDelete->next;` -/
def unlinkPrev (s : LinkedList T) (toDelete : Option Nat) : Option (LinkedList T) :=
  match s.heap.read toDelete with
  | none => none
  | some nd =>
    match nd.prev with
    | some p =>
      match s.heap.setNext (some p) nd.next with
      | none => none
      | some h => some { s with heap := h }
    | none => some { s with head := nd.next }

/-- Lines 247-248 of `remove`:
`if (toDelete->next) toDelete->next->prev = toDelete->prev; else tail = toDelete->prev;` -/
def unlinkNext (s : LinkedList T) (toDelete : Option Nat) : Option (LinkedList T) :=
  match s.heap.read toDelete with
  | none => none
  | some nd =>
    match nd.next with
    | some n =>
      match s.heap.setPrev (some n) nd.prev with
      | none => none
      | some h => some { s with heap := h }
    | none => some { s with tail := nd.prev }

/-- Member `LinkedList::remove` (list.h:236-252): bounds check, `getNode`, the null test of
line 242, the two re-linking statements, `delete toDelete`, `count--`. -/
def remove (s : LinkedList T) (index : Nat) : Outcome (LinkedList T) :=
  if index ≥ s.count then ⟨some .out_of_range, s⟩
  else
    match s.getNode index with
    | none => ⟨some .undefined_behaviour, s⟩
    | some none => ⟨none, s⟩
    | some (some toDelete) =>
      match s.unlinkPrev (some toDelete) with
      | none => ⟨some .undefined_behaviour, s⟩
      | some s1 =>
        match s1.unlinkNext (some toDelete) with
        | none => ⟨some .undefined_behaviour, s1⟩
        | some s2 =>
          match s2.heap.free (some toDelete) with
          | none => ⟨some .undefined_behaviour, s2⟩
          | some h3 => ⟨none, { s2 with heap := h3, count := s2.count - 1 }⟩

/-- Member `LinkedList::set` (list.h:262-269). -/
def set (s : LinkedList T) (index : Nat) (element : T) : Outcome (LinkedList T) :=
  match s.getNode index with
  | none => ⟨some .undefined_behaviour, s⟩
  | some none => ⟨some .out_of_range, s⟩
  | some (some node) =>
    match s.heap.setValue (some node) element with
    | none => ⟨some .undefined_behaviour, s⟩
    | some h => ⟨none, { s with heap := h }⟩

/-- Class `LinkedList` does not override `swap`: the inherited `List::swap` runs with the
`LinkedList` overrides of `size`, `get` and `set`. -/
def swap (s : LinkedList T) (index1 index2 : Nat) : Outcome (LinkedList T) :=
  AbstractList.swap size get set s index1 index2

/-- Representation invariant of `LinkedList`: the live chain consists of the pairwise
different addresses `addrs`, in order, holding the values `vals`; each node's `next` and
`prev` are its neighbours in `addrs` (null at the two ends); `head` and `tail` are the first
and last address (null when the chain is empty); `count` is the length of the chain. -/
structure Repr (s : LinkedList T) (addrs : List Nat) (vals : List T) : Prop where
  len_addrs : addrs.length = s.count
  len_vals : vals.length = s.count
  nodup : addrs.Nodup
  cell : ∀ i a, addrs[i]? = some a →
    ∃ v, vals[i]? = some v ∧
      s.heap.read (some a) = some ⟨v, addrs[i + 1]?, if i = 0 then none else addrs[i - 1]?⟩
  head_eq : s.head = addrs[0]?
  tail_eq : s.tail = if s.count = 0 then none else addrs[s.count - 1]?

/-- Class invariant of `LinkedList`: some chain of live nodes represents the object. -/
def WF (s : LinkedList T) : Prop := ∃ addrs vals, Repr s addrs vals

/-- The well-formed object `s` holds exactly the elements `xs`, in order. -/
def Abs (s : LinkedList T) (xs : List T) : Prop := ∃ addrs, Repr s addrs xs

/-- Structural invariant of `LinkedList` in the words of the design: `head` and `tail` are
null iff `count` is 0; following `next` from `head` visits exactly `count` live nodes and
ends at `tail`, whose `next` is null; the `prev` of `head` is null; and for every node `n`
of the chain, `n.prev.next == n` when `n.prev` exists and `n.next.prev == n` when `n.next`
exists. -/
structure Invariant (s : LinkedList T) : Prop where
  head_null : s.head = none ↔ s.count = 0
  tail_null : s.tail = none ↔ s.count = 0
  visits : ∀ k, k < s.count →
    ∃ a nd, s.heap.advance k s.head = some (some a) ∧ s.heap.read (some a) = some nd
  ends_at_tail : 0 < s.count → s.heap.advance (s.count - 1) s.head = some s.tail
  tail_next : ∀ nd, s.heap.read s.tail = some nd → nd.next = none
  head_prev : ∀ nd, s.heap.read s.head = some nd → nd.prev = none
  prev_next : ∀ k a nd, k < s.count → s.heap.advance k s.head = some (some a) →
    s.heap.read (some a) = some nd →
    ∀ p, nd.prev = some p → ∃ pn, s.heap.read (some p) = some pn ∧ pn.next = some a
  next_prev : ∀ k a nd, k < s.count → s.heap.advance k s.head = some (some a) →
    s.heap.read (some a) = some nd →
    ∀ q, nd.next = some q → ∃ qn, s.heap.read (some q) = some qn ∧ qn.prev = some a

end LinkedList

/-! ## Reference behaviour on the logical content -/

/-- What `get(index)` returns when the container holds the elements `xs`, in order. -/
def listGet {T : Type} (xs : List T) (index : Nat) : Except Error T :=
  match xs[index]? with
  | some v => .ok v
  | none => .error .out_of_range

/-- What `swap(index1, index2)` does to the elements `xs` when both indices are valid:
the two elements change places. -/
def listSwap {T : Type} (xs : List T) (index1 index2 : Nat) : List T :=
  match xs[index1]?, xs[index2]? with
  | some a, some b => (xs.set index1 b).set index2 a
  | _, _ => xs

/-! ## Sequences of calls made by a client -/

/-- One call made on a container through the `List<T>` interface. -/
inductive Call (T : Type) where
  | add (element : T)
  | get (index : Nat)
  | set (index : Nat) (element : T)
  | remove (index : Nat)
  | swap (index1 index2 : Nat)

/-- What the caller sees of one call: the exception, or the value returned
(`some v` for `get`, `none` for the `void` members). -/
abbrev Reply (T : Type) := Except Error (Option T)

/-- The reply of a `void` member function. -/
def Outcome.reply {σ T : Type} (o : Outcome σ) : Reply T :=
  match o.error with
  | some e => .error e
  | none => .ok none

/-- The reply of `get`. -/
def getReply {T : Type} (r : Except Error T) : Reply T :=
  match r with
  | .error e => .error e
  | .ok v => .ok (some v)

/-- The call returned normally. -/
def Reply.succeeded {T : Type} (r : Reply T) : Bool :=
  match r with
  | .ok _ => true
  | .error _ => false

/-- The call is an `add`. -/
def Call.isAdd {T : Type} : Call T → Bool
  | .add _ => true
  | _ => false

/-- The call is a `remove`. -/
def Call.isRemove {T : Type} : Call T → Bool
  | .remove _ => true
  | _ => false

/-- Number of `add` calls in a sequence. -/
def countAdds {T : Type} (calls : List (Call T)) : Nat :=
  (calls.filter Call.isAdd).length

/-- Number of `remove` calls in a sequence that returned normally, given the replies. -/
def countSuccessfulRemoves {T : Type} (calls : List (Call T)) (replies : List (Reply T)) : Nat :=
  ((calls.zip replies).filter (fun p => p.1.isRemove && p.2.succeeded)).length

/-- One call on an `ArrayList`: the reply and the object afterwards. -/
def ArrayList.call {T : Type} [Inhabited T] (s : ArrayList T) : Call T → Reply T × ArrayList T
  | .add x => ((s.add x).reply, (s.add x).state)
  | .get i => (getReply (s.get i), s)
  | .set i v => ((s.set i v).reply, (s.set i v).state)
  | .remove i => ((s.remove i).reply, (s.remove i).state)
  | .swap i j => ((s.swap i j).reply, (s.swap i j).state)

/-- A sequence of calls on an `ArrayList`, each on the object left by the previous one
(a caller that catches `std::out_of_range` goes on with the same object). -/
def ArrayList.run {T : Type} [Inhabited T] (s : ArrayList T) :
    List (Call T) → List (Reply T) × ArrayList T
  | [] => ([], s)
  | c :: cs => ((s.call c).1 :: ((s.call c).2.run cs).1, ((s.call c).2.run cs).2)

/-- One call on a `LinkedList`: the reply and the object afterwards. -/
def LinkedList.call {T : Type} (s : LinkedList T) : Call T → Reply T × LinkedList T
  | .add x => ((s.add x).reply, (s.add x).state)
  | .get i => (getReply (s.get i), s)
  | .set i v => ((s.set i v).reply, (s.set i v).state)
  | .remove i => ((s.remove i).reply, (s.remove i).state)
  | .swap i j => ((s.swap i j).reply, (s.swap i j).state)

/-- A sequence of calls on a `LinkedList`, each on the object left by the previous one. -/
def LinkedList.run {T : Type} (s : LinkedList T) :
    List (Call T) → List (Reply T) × LinkedList T
  | [] => ([], s)
  | c :: cs => ((s.call c).1 :: ((s.call c).2.run cs).1, ((s.call c).2.run cs).2)

/-- The object after `add(x)` for each `x` of `xs` in turn. -/
def ArrayList.addAll {T : Type} [Inhabited T] (s : ArrayList T) (xs : List T) : ArrayList T :=
  xs.foldl (fun s x => (s.add x).state) s

/-- The object after `add(x)` for each `x` of `xs` in turn. -/
def LinkedList.addAll {T : Type} (s : LinkedList T) (xs : List T) : LinkedList T :=
  xs.foldl (fun s x => (s.add x).state) s

/-- Reference behaviour of one call on a container holding `xs`: the reply and the
elements held afterwards (section 4.1 of the design: `add` appends, `set` overwrites,
`remove` shifts the later elements down, `swap` exchanges, an invalid index throws
`out_of_range` and changes nothing). -/
def listCall {T : Type} (xs : List T) : Call T → Reply T × List T
  | .add x => (.ok none, xs ++ [x])
  | .get i => (getReply (listGet xs i), xs)
  | .set i v => if i < xs.length then (.ok none, xs.set i v) else (.error .out_of_range, xs)
  | .remove i => if i < xs.length then (.ok none, xs.eraseIdx i) else (.error .out_of_range, xs)
  | .swap i j =>
    if i < xs.length ∧ j < xs.length then (.ok none, listSwap xs i j)
    else (.error .out_of_range, xs)

/-- Reference behaviour of a sequence of calls. -/
def listRun {T : Type} (xs : List T) : List (Call T) → List (Reply T) × List T
  | [] => ([], xs)
  | c :: cs => ((listCall xs c).1 :: (listRun (listCall xs c).2 cs).1,
      (listRun (listCall xs c).2 cs).2)

/-! ## `TextAnalyzer` -/

/-- A `List<T>&` argument: a reference to an object of either concrete class; the virtual
members dispatch on the dynamic type. -/
inductive AnyList (T : Type) where
  | array (a : ArrayList T)
  | linked (l : LinkedList T)

namespace AnyList

variable {T : Type}

/-- Virtual `size()`. -/
def size : AnyList T → Nat
  | .array a => a.size
  | .linked l => l.size

/-- Virtual `isEmpty()`. -/
def isEmpty : AnyList T → Bool
  | .array a => a.isEmpty
  | .linked l => l.isEmpty

/-- Virtual `get(index)`. -/
def get : AnyList T → Nat → Except Error T
  | .array a, i => a.get i
  | .linked l, i => l.get i

/-- Virtual `set(index, element)`. -/
def set : AnyList T → Nat → T → Outcome (AnyList T)
  | .array a, i, v => ⟨(a.set i v).error, .array (a.set i v).state⟩
  | .linked l, i, v => ⟨(l.set i v).error, .linked (l.set i v).state⟩

/-- The referenced object is well formed and holds exactly the elements `xs`, in order. -/
def Abs : AnyList T → List T → Prop
  | .array a, xs => a.Abs xs
  | .linked l, xs => l.Abs xs

/-- The elements at indices `i, i + 1, .., i + k - 1`, read with `get` (an index at which
`get` throws contributes nothing). -/
def readFrom (c : AnyList T) : Nat → Nat → List T
  | 0, _ => []
  | k + 1, i =>
    match c.get i with
    | .ok v => v :: readFrom c k (i + 1)
    | .error _ => readFrom c k (i + 1)

/-- The calls `set(i, y0); set(i + 1, y1); ..` for the elements of `ys`, stopping at the
first one that throws. -/
def writeFrom (c : AnyList T) : List T → Nat → Outcome (AnyList T)
  | [], _ => ⟨none, c⟩
  | y :: ys, i =>
    match c.set i y with
    | ⟨some e, c1⟩ => ⟨some e, c1⟩
    | ⟨none, c1⟩ => writeFrom c1 ys (i + 1)

end AnyList

/-- Modelled from the spec: `SortingAlgorithms.h` is not among the sources.  A
`SortingAlgorithm<T>` object exposes one operation, `sort(container, comparator)`, which
works on the container in place; here it maps the container and the comparator to the
outcome of the call. -/
structure SortingAlgorithm (T : Type) where
  sort : AnyList T → (T → T → Bool) → Outcome (AnyList T)

/-- The elements `ys` are ordered according to the comparator: no element is followed by
one that the comparator puts strictly before it. -/
def OrderedBy {T : Type} (comparator : T → T → Bool) (ys : List T) : Prop :=
  ys.Pairwise (fun a b => comparator b a = false)

/-- Modelled from the spec: the `SortingStrategy` contract of section 6 of the design
(`SortingAlgorithms.h` is not among the sources).  Called on a well-formed container that
holds `xs`, `sort(container, comparator)` returns normally and leaves the container holding
the same multiset of elements, ordered according to the comparator. -/
def SortingAlgorithm.MeetsContract {T : Type} (strategy : SortingAlgorithm T)
    (comparator : T → T → Bool) : Prop :=
  ∀ (c : AnyList T) (xs : List T), c.Abs xs →
    (strategy.sort c comparator).error = none ∧
      ∃ ys, (strategy.sort c comparator).state.Abs ys ∧ ys.Perm xs ∧ OrderedBy comparator ys

/-- Fields of `TextAnalyzer` (TextAnalyzer.h:35); `E` stands for `SortableEntity`
(`TextEntity*`, declared in `TextEntities.h`).  A null `unique_ptr` is `none`. -/
structure TextAnalyzer (E : Type) where
  sortStrategy : Option (SortingAlgorithm E)

/-- Everything a call of `TextAnalyzer::sort` leaves behind: the analyzer, the container
passed by reference, the exception that escaped (if any) and the lines written to
`std::cerr`. -/
structure SortResult (E : Type) where
  analyzer : TextAnalyzer E
  entityList : AnyList E
  error : Option Error
  diagnostics : List String

namespace TextAnalyzer

variable {E : Type}

/-- A default-constructed `TextAnalyzer`: the `unique_ptr` member is null. -/
def new : TextAnalyzer E := { sortStrategy := none }

/-- The state of the analyzer's state machine: `true` for "strategy installed", `false` for
"no strategy installed" (the test `if (!sortStrategy)` of `sort`). -/
def strategyInstalled (a : TextAnalyzer E) : Bool := a.sortStrategy.isSome

/-- Member `TextAnalyzer::setSortStrategy` (TextAnalyzer.h:47-49). -/
def setSortStrategy (_a : TextAnalyzer E) (strategy : Option (SortingAlgorithm E)) :
    TextAnalyzer E :=
  { sortStrategy := strategy }

/-- Member `TextAnalyzer::sort` (TextAnalyzer.h:58-64). -/
def sort (a : TextAnalyzer E) (entityList : AnyList E) (comparator : E → E → Bool) :
    SortResult E :=
  match a.sortStrategy with
  | none =>
    { analyzer := a, entityList := entityList, error := none,
      diagnostics := ["Error: Sorting strategy is not set!"] }
  | some strategy =>
    { analyzer := a, entityList := (strategy.sort entityList comparator).state,
      error := (strategy.sort entityList comparator).error, diagnostics := [] }

/-- Member `TextAnalyzer::checkImageCaptions` (TextAnalyzer.h:74-76); `Doc` stands for `Document`
(declared in `TextEntities.h`). -/
def checkImageCaptions {Doc : Type} (_a : TextAnalyzer E) (_doc : Doc) : List String := []

/-- Member `TextAnalyzer::findLongSentences` (TextAnalyzer.h:85-87). -/
def findLongSentences {Doc : Type} (_a : TextAnalyzer E) (_doc : Doc) (_maxWordCount : Nat) :
    List String := []

end TextAnalyzer

/-! ## Sample objects -/

/-- An `ArrayList` after `add(5)`, `add(3)`, `add(4)`. -/
def sampleArray : ArrayList Nat := ArrayList.addAll ArrayList.new [5, 3, 4]

/-- An `ArrayList` whose buffer is full: ten elements in the initial capacity of 10. -/
def fullArray : ArrayList Nat := ArrayList.addAll ArrayList.new [0, 1, 2, 3, 4, 5, 6, 7, 8, 9]

/-- A `LinkedList` after `add(5)`, `add(3)`, `add(4)`. -/
def sampleLinked : LinkedList Nat := LinkedList.addAll LinkedList.new [5, 3, 4]

/-- The comparator `a < b` on numbers. -/
def lessThan (a b : Nat) : Bool := decide (a < b)

/-- A sample strategy working through the `List<T>` interface only: it reads the elements
out with `get`, sorts the copy by insertion, and writes it back with `set`. -/
def copySortStrategy : SortingAlgorithm Nat where
  sort := fun c comparator =>
    c.writeFrom ((c.readFrom c.size 0).insertionSort (fun a b => comparator b a = false)) 0

/-- A sample strategy that leaves the container alone. -/
def idleStrategy : SortingAlgorithm Nat where
  sort := fun c _ => ⟨none, c⟩

/-- An analyzer with `copySortStrategy` installed. -/
def sampleAnalyzer : TextAnalyzer Nat :=
  TextAnalyzer.new.setSortStrategy (some copySortStrategy)

/-- An `ArrayList` after `add` of 5, 3, 4, 1, 2. -/
def unsortedArray : ArrayList Nat := ArrayList.addAll ArrayList.new [5, 3, 4, 1, 2]

/-- A `LinkedList` after `add` of 5, 3, 4, 1, 2. -/
def unsortedLinked : LinkedList Nat := LinkedList.addAll LinkedList.new [5, 3, 4, 1, 2]

/-! # Verification -/

/-! ## Facts about the reference behaviour -/

theorem listGet_of_lt {T : Type} {xs : List T} {i : Nat} (h : i < xs.length) :
    listGet xs i = .ok xs[i] := by
  simp [listGet, List.getElem?_eq_getElem h]

theorem listGet_of_ge {T : Type} {xs : List T} {i : Nat} (h : xs.length ≤ i) :
    listGet xs i = .error .out_of_range := by
  simp [listGet, List.getElem?_eq_none h]

theorem listGet_congr {T : Type} {xs ys : List T} {i j : Nat} (h : xs[i]? = ys[j]?) :
    listGet xs i = listGet ys j := by
  simp only [listGet, h]

theorem listGet_append_last {T : Type} (xs : List T) (x : T) :
    listGet (xs ++ [x]) xs.length = .ok x := by
  simp [listGet]

theorem listGet_append_lt {T : Type} (xs : List T) (x : T) {i : Nat} (h : i < xs.length) :
    listGet (xs ++ [x]) i = listGet xs i :=
  listGet_congr (List.getElem?_append_left h)

theorem listGet_eraseIdx_lt {T : Type} (xs : List T) {i k : Nat} (h : i < k) :
    listGet (xs.eraseIdx k) i = listGet xs i :=
  listGet_congr (by rw [List.getElem?_eraseIdx, if_pos h])

theorem listGet_eraseIdx_ge {T : Type} (xs : List T) {i k : Nat} (h : k ≤ i) :
    listGet (xs.eraseIdx k) i = listGet xs (i + 1) :=
  listGet_congr (by rw [List.getElem?_eraseIdx, if_neg (by omega)])

theorem listGet_set_same {T : Type} (xs : List T) {i : Nat} (v : T) (h : i < xs.length) :
    listGet (xs.set i v) i = .ok v := by
  simp [listGet, h]

theorem listGet_set_ne {T : Type} (xs : List T) {i k : Nat} (v : T) (h : i ≠ k) :
    listGet (xs.set i v) k = listGet xs k :=
  listGet_congr (by rw [List.getElem?_set, if_neg h])

theorem listSwap_of_lt {T : Type} {xs : List T} {i j : Nat} (hi : i < xs.length)
    (hj : j < xs.length) : listSwap xs i j = (xs.set i xs[j]).set j xs[i] := by
  simp [listSwap, List.getElem?_eq_getElem hi, List.getElem?_eq_getElem hj]

theorem length_listSwap {T : Type} (xs : List T) (i j : Nat) :
    (listSwap xs i j).length = xs.length := by
  unfold listSwap
  split <;> simp

theorem getElem?_listSwap {T : Type} {xs : List T} {i j : Nat} (hi : i < xs.length)
    (hj : j < xs.length) (k : Nat) :
    (listSwap xs i j)[k]? = if k = j then xs[i]? else if k = i then xs[j]? else xs[k]? := by
  rw [listSwap_of_lt hi hj, List.getElem?_set, List.getElem?_set]
  by_cases hkj : k = j
  · subst hkj
    simp [hj, List.getElem?_eq_getElem hi]
  · have hjk : ¬ (j = k) := fun e => hkj e.symm
    rw [if_neg hjk, if_neg hkj]
    by_cases hki : k = i
    · subst hki
      simp [hi, List.getElem?_eq_getElem hj]
    · have hik : ¬ (i = k) := fun e => hki e.symm
      rw [if_neg hik, if_neg hki]

theorem listSwap_listSwap {T : Type} {xs : List T} {i j : Nat} (hi : i < xs.length)
    (hj : j < xs.length) : listSwap (listSwap xs i j) i j = xs := by
  apply List.ext_getElem?
  intro k
  have hi1 : i < (listSwap xs i j).length := by rw [length_listSwap]; exact hi
  have hj1 : j < (listSwap xs i j).length := by rw [length_listSwap]; exact hj
  rw [getElem?_listSwap hi1 hj1, getElem?_listSwap hi hj, getElem?_listSwap hi hj,
    getElem?_listSwap hi hj]
  by_cases hkj : k = j
  · subst hkj
    by_cases hik : i = k
    · subst hik
      simp
    · simp [hik]
  · by_cases hki : k = i
    · subst hki
      simp [hkj]
    · simp [hkj, hki]

/-- Refinement of `List::swap`: whenever `size`, `get` and `set` of a concrete class behave
on the represented elements as the reference behaviour says, so does the inherited `swap`. -/
theorem AbstractList.swap_refines {L T : Type} {size : L → Nat}
    {get : L → Nat → Except Error T} {set : L → Nat → T → Outcome L}
    (Abs : L → List T → Prop)
    (hsize : ∀ s xs, Abs s xs → size s = xs.length)
    (hget : ∀ s xs, Abs s xs → ∀ i, get s i = listGet xs i)
    (hset : ∀ s xs, Abs s xs → ∀ i v, i < xs.length →
      (set s i v).error = none ∧ Abs (set s i v).state (xs.set i v))
    {s : L} {xs : List T} (h : Abs s xs) {i j : Nat} (hi : i < xs.length)
    (hj : j < xs.length) :
    (AbstractList.swap size get set s i j).error = none ∧
      Abs (AbstractList.swap size get set s i j).state (listSwap xs i j) := by
  have hval : ¬ (i ≥ size s ∨ j ≥ size s) := by
    rw [hsize s xs h]
    omega
  obtain ⟨e1, a1⟩ := hset s xs h i xs[j] hi
  obtain ⟨e2, a2⟩ := hset _ _ a1 j xs[i] (by simpa using hj)
  have hs1 : set s i xs[j] = ⟨none, (set s i xs[j]).state⟩ := by
    cases hh : set s i xs[j] with
    | mk err st =>
      rw [hh] at e1
      simp only at e1
      rw [e1]
  have hsw : AbstractList.swap size get set s i j = set (set s i xs[j]).state j xs[i] := by
    unfold AbstractList.swap
    rw [if_neg hval, hget s xs h i, hget s xs h j, listGet_of_lt hi, listGet_of_lt hj]
    simp only
    rw [hs1]
  rw [hsw, listSwap_of_lt hi hj]
  exact ⟨e2, a2⟩

theorem AbstractList.swap_throws {L T : Type} (size : L → Nat)
    (get : L → Nat → Except Error T) (set : L → Nat → T → Outcome L) (s : L) {i j : Nat}
    (h : i ≥ size s ∨ j ≥ size s) :
    AbstractList.swap size get set s i j = ⟨some .out_of_range, s⟩ := by
  unfold AbstractList.swap
  rw [if_pos h]

/-! ## `ArrayList`: the loops and the refinement to the logical content -/

namespace ArrayList

variable {T : Type}

theorem store_eq_some {buf : List T} {i : Nat} (v : T) (h : i < buf.length) :
    store buf i v = some (buf.set i v) := by
  simp [store, h]

theorem copyLoop_spec (data : List T) :
    ∀ (k i : Nat) (dst : List T), i + k ≤ data.length → i + k ≤ dst.length →
      ∃ d, copyLoop data k i dst = some d ∧ d.length = dst.length ∧
        ∀ j, d[j]? = if i ≤ j ∧ j < i + k then data[j]? else dst[j]? := by
  intro k
  induction k with
  | zero =>
    intro i dst _ _
    refine ⟨dst, rfl, rfl, fun j => ?_⟩
    rw [if_neg (by omega)]
  | succ k ih =>
    intro i dst h1 h2
    have hi : i < data.length := by omega
    have hd : i < dst.length := by omega
    obtain ⟨d, hd1, hd2, hd3⟩ := ih (i + 1) (dst.set i data[i]) (by omega) (by simp; omega)
    refine ⟨d, ?_, by simpa using hd2, fun j => ?_⟩
    · simp [copyLoop, List.getElem?_eq_getElem hi, store_eq_some _ hd, hd1]
    · rw [hd3 j, List.getElem?_set]
      by_cases hj : i = j
      · subst hj
        simp [hd, List.getElem?_eq_getElem hi]
      · by_cases hj2 : i + 1 ≤ j ∧ j < i + 1 + k
        · have : i ≤ j ∧ j < i + (k + 1) := by omega
          simp [hj2, this]
        · have : ¬ (i ≤ j ∧ j < i + (k + 1)) := by omega
          simp [hj2, this, hj]

theorem shiftLoop_spec :
    ∀ (k i : Nat) (d : List T), i + k < d.length →
      ∃ d1, shiftLoop k i d = some d1 ∧ d1.length = d.length ∧
        ∀ j, d1[j]? = if i ≤ j ∧ j < i + k then d[j + 1]? else d[j]? := by
  intro k
  induction k with
  | zero =>
    intro i d _
    refine ⟨d, rfl, rfl, fun j => ?_⟩
    rw [if_neg (by omega)]
  | succ k ih =>
    intro i d h
    have hi1 : i + 1 < d.length := by omega
    have hi : i < d.length := by omega
    obtain ⟨d1, h1, h2, h3⟩ := ih (i + 1) (d.set i d[i + 1]) (by simp; omega)
    refine ⟨d1, ?_, by simpa using h2, fun j => ?_⟩
    · simp [shiftLoop, List.getElem?_eq_getElem hi1, store_eq_some _ hi, h1]
    · rw [h3 j, List.getElem?_set, List.getElem?_set]
      by_cases hj : i = j
      · subst hj
        simp [hi, List.getElem?_eq_getElem hi1]
      · by_cases hj2 : i + 1 ≤ j ∧ j < i + 1 + k
        · have : i ≤ j ∧ j < i + (k + 1) := by omega
          have hne : ¬ (i = j + 1) := by omega
          simp [hj2, this, hne]
        · have : ¬ (i ≤ j ∧ j < i + (k + 1)) := by omega
          simp [hj2, this, hj]

theorem length_toList {s : ArrayList T} (h : s.WF) : s.toList.length = s.currentSize := by
  simp [toList, List.length_take, h.2]
  exact h.1

theorem getElem?_toList (s : ArrayList T) (j : Nat) :
    s.toList[j]? = if j < s.currentSize then s.data[j]? else none := by
  simp [toList, List.getElem?_take]

theorem resize_spec [Inhabited T] {s : ArrayList T} (h : s.WF) :
    ∃ s1, resize s = some s1 ∧ s1.WF ∧ s1.currentSize = s.currentSize ∧
      s1.capacity = (if s.capacity = 0 then 10 else s.capacity * 2) ∧
      s1.toList = s.toList := by
  obtain ⟨h1, h2⟩ := h
  have hc : s.currentSize ≤ (if s.capacity = 0 then 10 else s.capacity * 2) := by
    split <;> omega
  obtain ⟨d, hd1, hd2, hd3⟩ := copyLoop_spec s.data s.currentSize 0
    (List.replicate (if s.capacity = 0 then 10 else s.capacity * 2) default)
    (by omega) (by simpa using hc)
  refine ⟨{ data := d, currentSize := s.currentSize,
             capacity := if s.capacity = 0 then 10 else s.capacity * 2 },
    by simp only [resize, hd1], ⟨hc, by simpa using hd2⟩, rfl, rfl, ?_⟩
  apply List.ext_getElem?
  intro j
  rw [getElem?_toList, getElem?_toList]
  show (if j < s.currentSize then d[j]? else none) = _
  by_cases hj : j < s.currentSize
  · simp only [hj, if_true]
    rw [hd3 j, if_pos (by omega)]
  · simp [hj]

theorem add_spec [Inhabited T] {s : ArrayList T} (h : s.WF) (x : T) :
    (s.add x).error = none ∧ (s.add x).state.WF ∧
      (s.add x).state.toList = s.toList ++ [x] ∧
      (s.add x).state.currentSize = s.currentSize + 1 ∧
      (s.add x).state.capacity =
        (if s.currentSize ≥ s.capacity then (if s.capacity = 0 then 10 else s.capacity * 2)
         else s.capacity) := by
  have key : ∀ s1 : ArrayList T, s1.WF → s1.currentSize < s1.capacity →
      store s1.data s1.currentSize x = some (s1.data.set s1.currentSize x) ∧
      (s1.data.set s1.currentSize x).take (s1.currentSize + 1) = s1.toList ++ [x] := by
    intro s1 hw hlt
    have hl : s1.currentSize < s1.data.length := by rw [hw.2]; exact hlt
    refine ⟨store_eq_some _ hl, ?_⟩
    apply List.ext_getElem?
    intro j
    rw [List.getElem?_take, List.getElem?_set, List.getElem?_append, length_toList hw,
      getElem?_toList]
    by_cases hj : j < s1.currentSize
    · have : ¬ (s1.currentSize = j) := by omega
      have : j < s1.currentSize + 1 := by omega
      simp [*]
    · by_cases hj2 : s1.currentSize = j
      · subst hj2
        simp [hl]
      · have h3 : ¬ (j < s1.currentSize + 1) := by omega
        have h4 : j - s1.currentSize ≠ 0 := by omega
        rw [if_neg h3, if_neg hj]
        cases hk : j - s1.currentSize with
        | zero => omega
        | succ n => simp
  by_cases hfull : s.currentSize ≥ s.capacity
  · obtain ⟨s1, hr, hw1, hsz, hcap, hl⟩ := resize_spec h
    have hlt : s1.currentSize < s1.capacity := by
      rw [hsz, hcap]
      have := h.1
      split <;> omega
    obtain ⟨k1, k2⟩ := key s1 hw1 hlt
    have hadd : s.add x = ⟨none,
        { s1 with data := s1.data.set s1.currentSize x, currentSize := s1.currentSize + 1 }⟩ := by
      simp only [add, hfull, if_true, hr, k1]
    rw [hadd]
    refine ⟨rfl, ⟨?_, ?_⟩, ?_, ?_, ?_⟩
    · show s1.currentSize + 1 ≤ s1.capacity
      omega
    · show (s1.data.set s1.currentSize x).length = s1.capacity
      simpa using hw1.2
    · show (s1.data.set s1.currentSize x).take (s1.currentSize + 1) = s.toList ++ [x]
      rw [k2, hl]
    · show s1.currentSize + 1 = s.currentSize + 1
      rw [hsz]
    · show s1.capacity = _
      rw [if_pos hfull, hcap]
  · have hlt : s.currentSize < s.capacity := by omega
    obtain ⟨k1, k2⟩ := key s h hlt
    have hadd : s.add x = ⟨none,
        { s with data := s.data.set s.currentSize x, currentSize := s.currentSize + 1 }⟩ := by
      simp only [add, hfull, if_false, k1]
    rw [hadd]
    refine ⟨rfl, ⟨?_, ?_⟩, k2, rfl, ?_⟩
    · show s.currentSize + 1 ≤ s.capacity
      omega
    · show (s.data.set s.currentSize x).length = s.capacity
      simpa using h.2
    · show s.capacity = _
      rw [if_neg hfull]

theorem get_spec {s : ArrayList T} (h : s.WF) (i : Nat) : s.get i = listGet s.toList i := by
  unfold get listGet
  rw [getElem?_toList]
  by_cases hi : i < s.currentSize
  · have hl : i < s.data.length := by rw [h.2]; exact lt_of_lt_of_le hi h.1
    simp [hi, List.getElem?_eq_getElem hl]
  · simp [hi]

theorem remove_spec {s : ArrayList T} (h : s.WF) {k : Nat} (hk : k < s.currentSize) :
    (s.remove k).error = none ∧ (s.remove k).state.WF ∧
      (s.remove k).state.toList = s.toList.eraseIdx k ∧
      (s.remove k).state.currentSize = s.currentSize - 1 ∧
      (s.remove k).state.capacity = s.capacity := by
  obtain ⟨d, hd1, hd2, hd3⟩ := shiftLoop_spec (s.currentSize - 1 - k) k s.data
    (by have := h.1; have := h.2; omega)
  have hnk : ¬ (k ≥ s.currentSize) := by omega
  have hrem : s.remove k = ⟨none, { s with data := d, currentSize := s.currentSize - 1 }⟩ := by
    simp only [remove, hnk, if_false, hd1]
  rw [hrem]
  refine ⟨rfl, ⟨?_, ?_⟩, ?_, rfl, rfl⟩
  · show s.currentSize - 1 ≤ s.capacity
    have := h.1
    omega
  · show d.length = s.capacity
    rw [hd2, h.2]
  · show d.take (s.currentSize - 1) = s.toList.eraseIdx k
    apply List.ext_getElem?
    intro j
    rw [List.getElem?_take, List.getElem?_eraseIdx, getElem?_toList, getElem?_toList, hd3 j]
    by_cases hj : j < s.currentSize - 1
    · by_cases hjk : j < k
      · have : ¬ (k ≤ j ∧ j < k + (s.currentSize - 1 - k)) := by omega
        have : j < s.currentSize := by omega
        simp [*]
      · have : k ≤ j ∧ j < k + (s.currentSize - 1 - k) := by omega
        have : j + 1 < s.currentSize := by omega
        simp [*]
    · by_cases hjk : j < k
      · omega
      · have : ¬ (j + 1 < s.currentSize) := by omega
        simp [*]

theorem set_spec {s : ArrayList T} (h : s.WF) {i : Nat} (hi : i < s.currentSize) (v : T) :
    (s.set i v).error = none ∧ (s.set i v).state.WF ∧
      (s.set i v).state.toList = s.toList.set i v ∧
      (s.set i v).state.currentSize = s.currentSize ∧
      (s.set i v).state.capacity = s.capacity := by
  have hl : i < s.data.length := by rw [h.2]; exact lt_of_lt_of_le hi h.1
  have hni : ¬ (i ≥ s.currentSize) := by omega
  have hset : s.set i v = ⟨none, { s with data := s.data.set i v }⟩ := by
    simp only [set, hni, if_false, store_eq_some _ hl]
  rw [hset]
  refine ⟨rfl, ⟨h.1, ?_⟩, ?_, rfl, rfl⟩
  · show (s.data.set i v).length = s.capacity
    simpa using h.2
  · show (s.data.set i v).take s.currentSize = (s.data.take s.currentSize).set i v
    rw [List.set_take]

end ArrayList

/-! ## The free store -/

namespace Heap

variable {T : Type}

theorem read_some_iff {h : Heap T} {a : Nat} {nd : Node T} :
    h.read (some a) = some nd ↔ h.cells[a]? = some (some nd) := by
  simp only [read]
  cases h.cells[a]? with
  | none => simp
  | some c => cases c <;> simp

theorem lt_of_read {h : Heap T} {a : Nat} {nd : Node T} (hr : h.read (some a) = some nd) :
    a < h.cells.length := by
  rw [read_some_iff] at hr
  by_contra hlt
  rw [List.getElem?_eq_none (by omega)] at hr
  exact Option.noConfusion hr

theorem read_eq_of_cells {h h1 : Heap T} {a : Nat} (hc : h1.cells[a]? = h.cells[a]?) :
    h1.read (some a) = h.read (some a) := by
  simp only [read]
  rw [hc]

theorem read_write {h : Heap T} {a : Nat} (nd : Node T) (b : Nat) (ha : a < h.cells.length) :
    (h.write a nd).read (some b) = if a = b then some nd else h.read (some b) := by
  by_cases hab : a = b
  · subst hab
    rw [if_pos rfl, read_some_iff]
    simp [write, ha]
  · rw [if_neg hab]
    apply read_eq_of_cells
    simp [write, List.getElem?_set, hab]

theorem read_alloc (h : Heap T) (v : T) (b : Nat) :
    (h.alloc v).2.read (some b) =
      if b = h.cells.length then some ⟨v, none, none⟩ else h.read (some b) := by
  by_cases hb : b = h.cells.length
  · subst hb
    rw [if_pos rfl, read_some_iff]
    simp [alloc]
  · rw [if_neg hb]
    by_cases hlt : b < h.cells.length
    · apply read_eq_of_cells
      simp [alloc, List.getElem?_append, hlt]
    · have h1 : (h.alloc v).2.cells[b]? = none := by
        apply List.getElem?_eq_none
        simp [alloc]
        omega
      have h2 : h.cells[b]? = none := List.getElem?_eq_none (by omega)
      simp [read, h1, h2]

theorem free_spec {h : Heap T} {a : Nat} {nd : Node T} (hr : h.read (some a) = some nd) :
    ∃ h1, h.free (some a) = some h1 ∧
      ∀ b, h1.read (some b) = if a = b then none else h.read (some b) := by
  refine ⟨⟨h.cells.set a none⟩, by simp [free, hr], fun b => ?_⟩
  by_cases hab : a = b
  · subst hab
    rw [if_pos rfl]
    simp [read, List.getElem?_set, lt_of_read hr]
  · rw [if_neg hab]
    apply read_eq_of_cells
    simp [List.getElem?_set, hab]

theorem setNext_spec {h : Heap T} {a : Nat} {nd : Node T} (hr : h.read (some a) = some nd)
    (q : Option Nat) :
    ∃ h1, h.setNext (some a) q = some h1 ∧
      ∀ b, h1.read (some b) = if a = b then some { nd with next := q } else h.read (some b) := by
  exact ⟨h.write a { nd with next := q }, by simp [setNext, hr],
    fun b => read_write _ b (lt_of_read hr)⟩

theorem setPrev_spec {h : Heap T} {a : Nat} {nd : Node T} (hr : h.read (some a) = some nd)
    (q : Option Nat) :
    ∃ h1, h.setPrev (some a) q = some h1 ∧
      ∀ b, h1.read (some b) = if a = b then some { nd with prev := q } else h.read (some b) := by
  exact ⟨h.write a { nd with prev := q }, by simp [setPrev, hr],
    fun b => read_write _ b (lt_of_read hr)⟩

theorem setValue_spec {h : Heap T} {a : Nat} {nd : Node T} (hr : h.read (some a) = some nd)
    (v : T) :
    ∃ h1, h.setValue (some a) v = some h1 ∧
      ∀ b, h1.read (some b) = if a = b then some { nd with value := v } else h.read (some b) := by
  exact ⟨h.write a { nd with value := v }, by simp [setValue, hr],
    fun b => read_write _ b (lt_of_read hr)⟩

end Heap

/-! ## `LinkedList`: the representation invariant and the refinement -/

namespace LinkedList

variable {T : Type}

theorem Repr.inj {s : LinkedList T} {addrs : List Nat} {vals : List T} (R : Repr s addrs vals)
    {i j a : Nat} (hi : addrs[i]? = some a) (hj : addrs[j]? = some a) : i = j := by
  have h := List.nodup_iff_getElem?_ne_getElem?.mp R.nodup
  have hil : i < addrs.length := by
    by_contra hc
    rw [List.getElem?_eq_none (by omega)] at hi
    exact Option.noConfusion hi
  have hjl : j < addrs.length := by
    by_contra hc
    rw [List.getElem?_eq_none (by omega)] at hj
    exact Option.noConfusion hj
  rcases Nat.lt_trichotomy i j with hlt | heq | hgt
  · exact absurd (hi.trans hj.symm) (h i j hlt hjl)
  · exact heq
  · exact absurd (hj.trans hi.symm) (h j i hgt hil)

theorem Repr.addr_of_lt {s : LinkedList T} {addrs : List Nat} {vals : List T}
    (R : Repr s addrs vals) {i : Nat} (hi : i < s.count) : ∃ a, addrs[i]? = some a := by
  have : i < addrs.length := by rw [R.len_addrs]; exact hi
  exact ⟨addrs[i], List.getElem?_eq_getElem this⟩

theorem Repr.new_repr : Repr (new : LinkedList T) [] [] where
  len_addrs := rfl
  len_vals := rfl
  nodup := List.nodup_nil
  cell := by intro i a h; simp at h
  head_eq := rfl
  tail_eq := rfl

theorem Repr.advance_repr {s : LinkedList T} {addrs : List Nat} {vals : List T}
    (R : Repr s addrs vals) :
    ∀ k j, j + k ≤ s.count → s.heap.advance k addrs[j]? = some addrs[j + k]? := by
  intro k
  induction k with
  | zero => intro j _; rfl
  | succ k ih =>
    intro j hj
    obtain ⟨a, ha⟩ := R.addr_of_lt (show j < s.count by omega)
    obtain ⟨v, _, hr⟩ := R.cell j a ha
    rw [ha, Heap.advance, hr]
    show s.heap.advance k addrs[j + 1]? = _
    rw [ih (j + 1) (by omega)]
    congr 2
    omega

theorem Repr.getNode_repr {s : LinkedList T} {addrs : List Nat} {vals : List T}
    (R : Repr s addrs vals) (i : Nat) : s.getNode i = some addrs[i]? := by
  unfold LinkedList.getNode
  by_cases hi : i ≥ s.count
  · rw [if_pos hi, List.getElem?_eq_none (by rw [R.len_addrs]; exact hi)]
  · rw [if_neg hi, R.head_eq, R.advance_repr i 0 (by omega)]
    simp

theorem Repr.get_repr {s : LinkedList T} {addrs : List Nat} {vals : List T}
    (R : Repr s addrs vals) (i : Nat) : s.get i = listGet vals i := by
  unfold LinkedList.get listGet
  by_cases hi : i ≥ s.count
  · rw [if_pos hi, List.getElem?_eq_none (by rw [R.len_vals]; exact hi)]
  · rw [if_neg hi, R.head_eq, R.advance_repr i 0 (by omega)]
    obtain ⟨a, ha⟩ := R.addr_of_lt (show i < s.count by omega)
    obtain ⟨v, hv, hr⟩ := R.cell i a ha
    simp only [Nat.zero_add, ha, hr, hv]

theorem Repr.set_ok {s : LinkedList T} {addrs : List Nat} {vals : List T}
    (R : Repr s addrs vals) {i : Nat} (hi : i < s.count) (x : T) :
    (s.set i x).error = none ∧ Repr (s.set i x).state addrs (vals.set i x) := by
  obtain ⟨a, ha⟩ := R.addr_of_lt hi
  obtain ⟨v, hv, hr⟩ := R.cell i a ha
  obtain ⟨h1, hs, hrd⟩ := Heap.setValue_spec hr x
  have hset : s.set i x = ⟨none, { s with heap := h1 }⟩ := by
    simp only [LinkedList.set, R.getNode_repr, ha, hs]
  rw [hset]
  refine ⟨rfl, ?_⟩
  exact {
    len_addrs := R.len_addrs
    len_vals := by simpa using R.len_vals
    nodup := R.nodup
    head_eq := R.head_eq
    tail_eq := R.tail_eq
    cell := by
      intro j b hb
      obtain ⟨w, hw, hrb⟩ := R.cell j b hb
      show ∃ u, (vals.set i x)[j]? = some u ∧ h1.read (some b) = _
      rw [hrd b, List.getElem?_set]
      by_cases hab : a = b
      · subst hab
        have hij : i = j := R.inj ha hb
        subst hij
        have hl : i < vals.length := by rw [R.len_vals]; exact hi
        refine ⟨x, by simp [hl], ?_⟩
        simp only [if_true]
      · have hij : ¬ (i = j) := fun e => hab (by subst e; rw [ha] at hb; injection hb)
        exact ⟨w, by simp [hij, hw], by simp [hab, hrb]⟩ }

theorem Repr.addr_lt {s : LinkedList T} {addrs : List Nat} {vals : List T}
    (R : Repr s addrs vals) {i a : Nat} (ha : addrs[i]? = some a) : a < s.heap.cells.length := by
  obtain ⟨v, _, hr⟩ := R.cell i a ha
  exact Heap.lt_of_read hr

theorem Repr.add_ok {s : LinkedList T} {addrs : List Nat} {vals : List T}
    (R : Repr s addrs vals) (x : T) :
    (s.add x).error = none ∧
      Repr (s.add x).state (addrs ++ [s.heap.cells.length]) (vals ++ [x]) := by
  have hfresh : s.heap.cells.length ∉ addrs := by
    intro hmem
    obtain ⟨i, hi⟩ := List.getElem?_of_mem hmem
    exact absurd (R.addr_lt hi) (lt_irrefl _)
  have hnodup : (addrs ++ [s.heap.cells.length]).Nodup := by
    rw [List.nodup_append]
    refine ⟨R.nodup, List.nodup_singleton _, ?_⟩
    intro a ha hb
    rw [List.mem_singleton] at hb
    subst hb
    exact hfresh ha
  have hal : s.heap.alloc x = (s.heap.cells.length, (s.heap.alloc x).2) := rfl
  by_cases h0 : s.count = 0
  · have ha : addrs = [] := List.length_eq_zero.mp (by rw [R.len_addrs, h0])
    have hv : vals = [] := List.length_eq_zero.mp (by rw [R.len_vals, h0])
    subst ha
    subst hv
    have hadd : s.add x = ⟨none,
        { heap := (s.heap.alloc x).2, head := some s.heap.cells.length,
          tail := some s.heap.cells.length, count := s.count + 1 }⟩ := by
      unfold LinkedList.add
      rw [hal]
      simp [isEmpty, h0]
    rw [hadd]
    refine ⟨rfl, ?_⟩
    exact {
      len_addrs := by simp [h0]
      len_vals := by simp [h0]
      nodup := hnodup
      head_eq := by simp
      tail_eq := by simp [h0]
      cell := by
        intro i a hia
        show ∃ v, _ ∧ (s.heap.alloc x).2.read (some a) = _
        rw [Heap.read_alloc]
        cases i with
        | zero =>
          simp at hia
          subst hia
          exact ⟨x, by simp, by simp⟩
        | succ i => simp at hia }
  · obtain ⟨t, ht⟩ := R.addr_of_lt (show s.count - 1 < s.count by omega)
    have htail : s.tail = some t := by rw [R.tail_eq, if_neg h0, ht]
    obtain ⟨vt, hvt, hrt⟩ := R.cell _ t ht
    have htn : t ≠ s.heap.cells.length := Nat.ne_of_lt (R.addr_lt ht)
    have hr0 : (s.heap.alloc x).2.read (some t) = _ := (Heap.read_alloc s.heap x t).trans
      ((if_neg htn).trans hrt)
    obtain ⟨h1, hs1, hr1⟩ := Heap.setNext_spec hr0 (some s.heap.cells.length)
    have hrn : h1.read (some s.heap.cells.length) = some ⟨x, none, none⟩ := by
      rw [hr1, if_neg htn, Heap.read_alloc, if_pos rfl]
    obtain ⟨h2, hs2, hr2⟩ := Heap.setPrev_spec hrn (some t)
    have hadd : s.add x = ⟨none,
        { heap := h2, head := s.head, tail := some s.heap.cells.length,
          count := s.count + 1 }⟩ := by
      unfold LinkedList.add
      rw [hal]
      simp [isEmpty, h0, htail, hs1, hs2]
    rw [hadd]
    refine ⟨rfl, ?_⟩
    have hlen := R.len_addrs
    exact {
      len_addrs := by simp [hlen]
      len_vals := by simp [R.len_vals]
      nodup := hnodup
      head_eq := by
        show s.head = _
        rw [R.head_eq, List.getElem?_append_left (by omega)]
      tail_eq := by
        show some s.heap.cells.length =
          if s.count + 1 = 0 then none else (addrs ++ [s.heap.cells.length])[s.count + 1 - 1]?
        rw [if_neg (by omega), List.getElem?_append_right (by omega)]
        simp [hlen]
      cell := by
        intro i a hia
        show ∃ v, _ ∧ h2.read (some a) = _
        rw [hr2, hr1, Heap.read_alloc]
        by_cases hi : i < s.count
        · rw [List.getElem?_append_left (by omega)] at hia
          obtain ⟨v, hv, hr⟩ := R.cell i a hia
          have han : s.heap.cells.length ≠ a := Nat.ne_of_gt (R.addr_lt hia)
          refine ⟨v, by rw [List.getElem?_append_left (by rw [R.len_vals]; exact hi)]; exact hv,
            ?_⟩
          rw [if_neg han, if_neg (Ne.symm han), hr]
          have hprev : (if i = 0 then none else (addrs ++ [s.heap.cells.length])[i - 1]?)
              = (if i = 0 then none else addrs[i - 1]?) := by
            split
            · rfl
            · rw [List.getElem?_append_left (by omega)]
          rw [hprev]
          by_cases hta : t = a
          · subst hta
            have hidx : s.count - 1 = i := R.inj ht hia
            subst hidx
            have hv2 : vt = v := by
              rw [hrt] at hr
              injection hr with hr
              injection hr
            subst hv2
            rw [if_pos rfl]
            have hnx : (addrs ++ [s.heap.cells.length])[s.count - 1 + 1]?
                = some s.heap.cells.length := by
              rw [List.getElem?_append_right (by omega)]
              have : s.count - 1 + 1 - addrs.length = 0 := by omega
              simp [this]
            rw [hnx]
          · rw [if_neg hta]
            have hidx : i ≠ s.count - 1 := fun e => hta (by
              rw [← e] at ht; rw [hia] at ht; injection ht with ht; exact ht.symm)
            rw [List.getElem?_append_left (by omega)]
        · have hi2 : i = s.count := by
            have := (addrs ++ [s.heap.cells.length]).length
            by_contra hne
            rw [List.getElem?_eq_none (by simp; omega)] at hia
            exact Option.noConfusion hia
          subst hi2
          rw [List.getElem?_append_right (by omega)] at hia
          have h00 : s.count - addrs.length = 0 := by omega
          rw [h00] at hia
          simp at hia
          subst hia
          refine ⟨x, ?_, ?_⟩
          · rw [List.getElem?_append_right (by rw [R.len_vals])]
            simp [R.len_vals]
          · rw [if_pos rfl]
            have h1 : (addrs ++ [s.heap.cells.length])[s.count + 1]? = none :=
              List.getElem?_eq_none (by simp; omega)
            have h2 : (addrs ++ [s.heap.cells.length])[s.count - 1]? = some t := by
              rw [List.getElem?_append_left (by omega), ht]
            rw [h1, if_neg h0, h2] }

theorem unlinkPrev_spec {s : LinkedList T} {d : Nat} {nd : Node T}
    (hr : s.heap.read (some d) = some nd)
    (hp : ∀ p, nd.prev = some p → ∃ ndp, s.heap.read (some p) = some ndp) :
    ∃ s1, s.unlinkPrev (some d) = some s1 ∧ s1.count = s.count ∧ s1.tail = s.tail ∧
      s1.head = (if nd.prev = none then nd.next else s.head) ∧
      ∀ b, s1.heap.read (some b) =
        if nd.prev = some b then (s.heap.read (some b)).map (fun n => { n with next := nd.next })
        else s.heap.read (some b) := by
  cases hpv : nd.prev with
  | none =>
    refine ⟨{ s with head := nd.next }, by simp [unlinkPrev, hr, hpv], rfl, rfl, by simp, ?_⟩
    intro b
    simp
  | some p =>
    obtain ⟨ndp, hrp⟩ := hp p hpv
    obtain ⟨h1, hs1, hr1⟩ := Heap.setNext_spec hrp nd.next
    refine ⟨{ s with heap := h1 }, by simp [unlinkPrev, hr, hpv, hs1], rfl, rfl, by simp, ?_⟩
    intro b
    show h1.read (some b) = _
    rw [hr1 b]
    by_cases hpb : p = b
    · subst hpb
      simp [hrp]
    · have : ¬ (some p = some b) := fun e => hpb (Option.some.inj e)
      simp [hpb]

theorem unlinkNext_spec {s : LinkedList T} {d : Nat} {nd : Node T}
    (hr : s.heap.read (some d) = some nd)
    (hn : ∀ n, nd.next = some n → ∃ ndn, s.heap.read (some n) = some ndn) :
    ∃ s1, s.unlinkNext (some d) = some s1 ∧ s1.count = s.count ∧ s1.head = s.head ∧
      s1.tail = (if nd.next = none then nd.prev else s.tail) ∧
      ∀ b, s1.heap.read (some b) =
        if nd.next = some b then (s.heap.read (some b)).map (fun n => { n with prev := nd.prev })
        else s.heap.read (some b) := by
  cases hnx : nd.next with
  | none =>
    refine ⟨{ s with tail := nd.prev }, by simp [unlinkNext, hr, hnx], rfl, rfl, by simp, ?_⟩
    intro b
    simp
  | some n =>
    obtain ⟨ndn, hrn⟩ := hn n hnx
    obtain ⟨h1, hs1, hr1⟩ := Heap.setPrev_spec hrn nd.prev
    refine ⟨{ s with heap := h1 }, by simp [unlinkNext, hr, hnx, hs1], rfl, rfl, by simp, ?_⟩
    intro b
    show h1.read (some b) = _
    rw [hr1 b]
    by_cases hnb : n = b
    · subst hnb
      simp [hrn]
    · have : ¬ (some n = some b) := fun e => hnb (Option.some.inj e)
      simp [hnb]

theorem Repr.remove_ok {s : LinkedList T} {addrs : List Nat} {vals : List T}
    (R : Repr s addrs vals) {k : Nat} (hk : k < s.count) :
    (s.remove k).error = none ∧
      Repr (s.remove k).state (addrs.eraseIdx k) (vals.eraseIdx k) := by
  obtain ⟨d, hd⟩ := R.addr_of_lt hk
  obtain ⟨vd, hvd, hrd⟩ := R.cell k d hd
  obtain ⟨pv, hpv⟩ : ∃ pv, pv = (if k = 0 then none else addrs[k - 1]?) := ⟨_, rfl⟩
  obtain ⟨nx, hnx⟩ : ∃ nx, nx = addrs[k + 1]? := ⟨_, rfl⟩
  rw [← hpv, ← hnx] at hrd
  -- which addresses the two neighbour pointers can be
  have pv_iff : ∀ j a, addrs[j]? = some a → (pv = some a ↔ j + 1 = k) := by
    intro j a hj
    rw [hpv]
    constructor
    · intro h
      by_cases hk0 : k = 0
      · rw [if_pos hk0] at h
        exact Option.noConfusion h
      · rw [if_neg hk0] at h
        have := R.inj h hj
        omega
    · intro h
      have hk0 : k ≠ 0 := by omega
      have hkj : k - 1 = j := by omega
      rw [if_neg hk0, hkj, hj]
  have nx_iff : ∀ j a, addrs[j]? = some a → (nx = some a ↔ j = k + 1) := by
    intro j a hj
    rw [hnx]
    constructor
    · intro h
      exact R.inj hj h
    · intro h
      rw [← h, hj]
  have hp : ∀ p, pv = some p → ∃ ndp, s.heap.read (some p) = some ndp := by
    intro p hpp
    have hk0 : k ≠ 0 := by
      intro hk0
      rw [hpv, if_pos hk0] at hpp
      exact Option.noConfusion hpp
    rw [hpv, if_neg hk0] at hpp
    obtain ⟨v, _, h⟩ := R.cell (k - 1) p hpp
    exact ⟨_, h⟩
  obtain ⟨s1, hu1, hc1, ht1, hh1, hr1⟩ := unlinkPrev_spec hrd hp
  have hr1 : ∀ b, s1.heap.read (some b) =
      if pv = some b then (s.heap.read (some b)).map (fun n => { n with next := nx })
      else s.heap.read (some b) := hr1
  have hh1 : s1.head = if pv = none then nx else s.head := hh1
  have hpd : ¬ (pv = some d) := fun h => by
    have := (pv_iff k d hd).mp h
    omega
  have hnd : ¬ (nx = some d) := fun h => by
    have := (nx_iff k d hd).mp h
    omega
  have hrd1 : s1.heap.read (some d) = some ⟨vd, nx, pv⟩ := by rw [hr1, if_neg hpd, hrd]
  have hn : ∀ n, nx = some n → ∃ ndn, s1.heap.read (some n) = some ndn := by
    intro n hnn
    rw [hnx] at hnn
    obtain ⟨v, _, h⟩ := R.cell (k + 1) n hnn
    rw [hr1, h]
    split
    · exact ⟨_, rfl⟩
    · exact ⟨_, rfl⟩
  obtain ⟨s2, hu2, hc2, hh2, ht2, hr2⟩ := unlinkNext_spec hrd1 hn
  have hr2 : ∀ b, s2.heap.read (some b) =
      if nx = some b then (s1.heap.read (some b)).map (fun n => { n with prev := pv })
      else s1.heap.read (some b) := hr2
  have ht2 : s2.tail = if nx = none then pv else s1.tail := ht2
  have hrd2 : s2.heap.read (some d) = some ⟨vd, nx, pv⟩ := by rw [hr2, if_neg hnd, hrd1]
  obtain ⟨h3, hf, hr3⟩ := Heap.free_spec hrd2
  have hrem : s.remove k = ⟨none, { s2 with heap := h3, count := s2.count - 1 }⟩ := by
    simp only [LinkedList.remove, if_neg (not_le.mpr hk), R.getNode_repr, hd, hu1, hu2, hf]
  rw [hrem]
  refine ⟨rfl, ?_⟩
  have hla := R.len_addrs
  have hlv := R.len_vals
  exact {
    len_addrs := by
      show (addrs.eraseIdx k).length = s2.count - 1
      rw [List.length_eraseIdx, hc2, hc1]
      simp [hla, hk]
    len_vals := by
      show (vals.eraseIdx k).length = s2.count - 1
      rw [List.length_eraseIdx, hc2, hc1]
      simp [hlv, hk]
    nodup := R.nodup.sublist (List.eraseIdx_sublist _ _)
    head_eq := by
      show s2.head = _
      rw [hh2, hh1, List.getElem?_eraseIdx, hpv, hnx]
      by_cases hk0 : k = 0
      · subst hk0
        simp
      · have : 0 < k := by omega
        rw [if_neg hk0, if_pos this, R.head_eq]
        obtain ⟨p, hp0⟩ := R.addr_of_lt (show k - 1 < s.count by omega)
        simp [hp0]
    tail_eq := by
      show s2.tail = if s2.count - 1 = 0 then none else (addrs.eraseIdx k)[s2.count - 1 - 1]?
      rw [ht2, ht1, hc2, hc1, List.getElem?_eraseIdx, hnx, hpv, R.tail_eq]
      by_cases hlast : k + 1 = s.count
      · have hnone : addrs[k + 1]? = none := List.getElem?_eq_none (by omega)
        rw [if_pos hnone]
        by_cases hk0 : k = 0
        · have : s.count - 1 = 0 := by omega
          rw [if_pos hk0, if_pos this]
        · have h1 : ¬ (s.count - 1 = 0) := by omega
          have h2 : s.count - 1 - 1 < k := by omega
          have h3 : s.count - 1 - 1 = k - 1 := by omega
          rw [if_neg hk0, if_neg h1, if_pos h2, h3]
      · obtain ⟨n, hn0⟩ := R.addr_of_lt (show k + 1 < s.count by omega)
        have hsome : ¬ (addrs[k + 1]? = none) := by simp [hn0]
        have h0 : ¬ (s.count = 0) := by omega
        have h1 : ¬ (s.count - 1 = 0) := by omega
        have h2 : ¬ (s.count - 1 - 1 < k) := by omega
        have h3 : s.count - 1 - 1 + 1 = s.count - 1 := by omega
        rw [if_neg hsome, if_neg h0, if_neg h1, if_neg h2, h3]
    cell := by
      intro i a hia
      show ∃ v, _ ∧ h3.read (some a) = _
      rw [List.getElem?_eraseIdx] at hia
      rw [hr3, hr2, hr1]
      simp only [List.getElem?_eraseIdx]
      by_cases hik : i < k
      · rw [if_pos hik] at hia
        obtain ⟨v, hv, hra⟩ := R.cell i a hia
        have hda : ¬ (d = a) := fun e => by
          subst e
          have := R.inj hd hia
          omega
        have hnxa : ¬ (nx = some a) := fun e => by
          have := (nx_iff i a hia).mp e
          omega
        refine ⟨v, by rw [if_pos hik]; exact hv, ?_⟩
        rw [if_neg hda, if_neg hnxa, hra]
        have hprev : (if i = 0 then none
            else if i - 1 < k then addrs[i - 1]? else addrs[i - 1 + 1]?)
            = (if i = 0 then none else addrs[i - 1]?) := by
          split
          · rfl
          · rw [if_pos (by omega)]
        rw [hprev]
        by_cases hi1 : i + 1 = k
        · have hpva : pv = some a := (pv_iff i a hia).mpr hi1
          have : ¬ (i + 1 < k) := by omega
          rw [if_pos hpva, if_neg this, hnx, ← hi1]
          rfl
        · have hpva : ¬ (pv = some a) := fun e => hi1 ((pv_iff i a hia).mp e)
          have : i + 1 < k := by omega
          rw [if_neg hpva, if_pos this]
      · rw [if_neg hik] at hia
        obtain ⟨v, hv, hra⟩ := R.cell (i + 1) a hia
        have hda : ¬ (d = a) := fun e => by
          subst e
          have := R.inj hd hia
          omega
        have hpva : ¬ (pv = some a) := fun e => by
          have := (pv_iff (i + 1) a hia).mp e
          omega
        refine ⟨v, by rw [if_neg hik]; exact hv, ?_⟩
        have hnext : ¬ (i + 1 < k) := by omega
        rw [if_neg hda, if_neg hpva, hra, if_neg hnext]
        by_cases hi1 : i = k
        · have hnxa : nx = some a := (nx_iff (i + 1) a hia).mpr (by omega)
          rw [if_pos hnxa, hpv]
          subst hi1
          by_cases hi0 : i = 0
          · simp [hi0]
          · have : i - 1 < i := by omega
            simp [hi0, this]
        · have hnxa : ¬ (nx = some a) := fun e => by
            have := (nx_iff (i + 1) a hia).mp e
            omega
          have h0 : ¬ (i = 0) := by omega
          have h1 : ¬ (i - 1 < k) := by omega
          have h2 : i - 1 + 1 = i := by omega
          rw [if_neg hnxa, if_neg h0, if_neg h1, h2]
          simp }

theorem remove_out_of_range_linked (s : LinkedList T) {i : Nat} (hi : i ≥ s.count) :
    s.remove i = ⟨some .out_of_range, s⟩ := by
  simp [LinkedList.remove, hi]

theorem get_out_of_range_linked (s : LinkedList T) {i : Nat} (hi : i ≥ s.count) :
    s.get i = .error .out_of_range := by
  simp [LinkedList.get, hi]

theorem set_out_of_range_linked (s : LinkedList T) {i : Nat} (hi : i ≥ s.count) (x : T) :
    s.set i x = ⟨some .out_of_range, s⟩ := by
  simp [LinkedList.set, LinkedList.getNode, hi]

end LinkedList

/-! ## Both containers refine the reference behaviour -/

namespace ArrayList

variable {T : Type}

theorem Abs.size_array {s : ArrayList T} {xs : List T} (h : s.Abs xs) : s.size = xs.length := by
  rw [← h.2, length_toList h.1]
  rfl

theorem Abs.get_array {s : ArrayList T} {xs : List T} (h : s.Abs xs) (i : Nat) :
    s.get i = listGet xs i := by
  rw [← h.2]
  exact get_spec h.1 i

theorem Abs.new_array [Inhabited T] : (new : ArrayList T).Abs [] := by
  refine ⟨⟨?_, ?_⟩, ?_⟩
  · show 0 ≤ 10
    omega
  · show (List.replicate 10 (default : T)).length = 10
    simp
  · show (List.replicate 10 (default : T)).take 0 = []
    rfl

theorem Abs.add_array [Inhabited T] {s : ArrayList T} {xs : List T} (h : s.Abs xs) (x : T) :
    (s.add x).error = none ∧ (s.add x).state.Abs (xs ++ [x]) := by
  obtain ⟨h1, h2, h3, _, _⟩ := add_spec h.1 x
  exact ⟨h1, h2, by rw [h3, h.2]⟩

theorem Abs.set_array {s : ArrayList T} {xs : List T} (h : s.Abs xs) {i : Nat} (v : T)
    (hi : i < xs.length) :
    (s.set i v).error = none ∧ (s.set i v).state.Abs (xs.set i v) := by
  have hi1 : i < s.currentSize := by rw [← h.size_array] at hi; exact hi
  obtain ⟨h1, h2, h3, _, _⟩ := set_spec h.1 hi1 v
  exact ⟨h1, h2, by rw [h3, h.2]⟩

theorem Abs.remove_array {s : ArrayList T} {xs : List T} (h : s.Abs xs) {k : Nat}
    (hk : k < xs.length) :
    (s.remove k).error = none ∧ (s.remove k).state.Abs (xs.eraseIdx k) := by
  have hk1 : k < s.currentSize := by rw [← h.size_array] at hk; exact hk
  obtain ⟨h1, h2, h3, _, _⟩ := remove_spec h.1 hk1
  exact ⟨h1, h2, by rw [h3, h.2]⟩

theorem swap_spec {s : ArrayList T} (h : s.WF) {i j : Nat} (hi : i < s.currentSize)
    (hj : j < s.currentSize) :
    (s.swap i j).error = none ∧ (s.swap i j).state.WF ∧
      (s.swap i j).state.toList = listSwap s.toList i j ∧
      (s.swap i j).state.currentSize = s.currentSize ∧
      (s.swap i j).state.capacity = s.capacity := by
  have hil : i < s.data.length := by rw [h.2]; exact lt_of_lt_of_le hi h.1
  have hjl : j < s.data.length := by rw [h.2]; exact lt_of_lt_of_le hj h.1
  have hval : ¬ (i ≥ s.currentSize ∨ j ≥ s.currentSize) := by omega
  have hsw : s.swap i j = ⟨none, { s with data := (s.data.set i s.data[j]).set j s.data[i] }⟩ := by
    have hjl1 : j < (s.data.set i s.data[j]).length := by simpa using hjl
    simp only [swap, if_neg hval, List.getElem?_eq_getElem hil, List.getElem?_eq_getElem hjl,
      store_eq_some _ hil, store_eq_some _ hjl1]
  rw [hsw]
  refine ⟨rfl, ⟨h.1, ?_⟩, ?_, rfl, rfl⟩
  · show ((s.data.set i s.data[j]).set j s.data[i]).length = s.capacity
    simpa using h.2
  · show ((s.data.set i s.data[j]).set j s.data[i]).take s.currentSize = listSwap s.toList i j
    have hit : i < s.toList.length := by rw [length_toList h]; exact hi
    have hjt : j < s.toList.length := by rw [length_toList h]; exact hj
    have e1 : s.toList[i] = s.data[i] := by simp [toList]
    have e2 : s.toList[j] = s.data[j] := by simp [toList]
    rw [listSwap_of_lt hit hjt, e1, e2, List.set_take, List.set_take]
    rfl

theorem Abs.swap_array {s : ArrayList T} {xs : List T} (h : s.Abs xs) {i j : Nat}
    (hi : i < xs.length) (hj : j < xs.length) :
    (s.swap i j).error = none ∧ (s.swap i j).state.Abs (listSwap xs i j) := by
  have hi1 : i < s.currentSize := by rw [← h.size_array] at hi; exact hi
  have hj1 : j < s.currentSize := by rw [← h.size_array] at hj; exact hj
  obtain ⟨h1, h2, h3, _, _⟩ := swap_spec h.1 hi1 hj1
  exact ⟨h1, h2, by rw [h3, h.2]⟩

theorem Abs.defaultSwap {s : ArrayList T} {xs : List T} (h : s.Abs xs) {i j : Nat}
    (hi : i < xs.length) (hj : j < xs.length) :
    (s.defaultSwap i j).error = none ∧ (s.defaultSwap i j).state.Abs (listSwap xs i j) :=
  AbstractList.swap_refines ArrayList.Abs (fun _ _ h => h.size_array) (fun _ _ h => h.get_array)
    (fun _ _ h _ v hi => h.set_array v hi) h hi hj

theorem Abs.of_WF_array {s : ArrayList T} (h : s.WF) : s.Abs s.toList := ⟨h, rfl⟩

end ArrayList

namespace LinkedList

variable {T : Type}

theorem Abs.size_linked {s : LinkedList T} {xs : List T} (h : s.Abs xs) : s.size = xs.length := by
  obtain ⟨addrs, R⟩ := h
  exact R.len_vals.symm

theorem Abs.get_linked {s : LinkedList T} {xs : List T} (h : s.Abs xs) (i : Nat) :
    s.get i = listGet xs i := by
  obtain ⟨addrs, R⟩ := h
  exact R.get_repr i

theorem Abs.new_linked : (new : LinkedList T).Abs [] := ⟨[], Repr.new_repr⟩

theorem Abs.add_linked {s : LinkedList T} {xs : List T} (h : s.Abs xs) (x : T) :
    (s.add x).error = none ∧ (s.add x).state.Abs (xs ++ [x]) := by
  obtain ⟨addrs, R⟩ := h
  exact ⟨(R.add_ok x).1, _, (R.add_ok x).2⟩

theorem Abs.set_linked {s : LinkedList T} {xs : List T} (h : s.Abs xs) {i : Nat} (v : T)
    (hi : i < xs.length) :
    (s.set i v).error = none ∧ (s.set i v).state.Abs (xs.set i v) := by
  obtain ⟨addrs, R⟩ := h
  have hi1 : i < s.count := by rw [← R.len_vals]; exact hi
  exact ⟨(R.set_ok hi1 v).1, _, (R.set_ok hi1 v).2⟩

theorem Abs.remove_linked {s : LinkedList T} {xs : List T} (h : s.Abs xs) {k : Nat}
    (hk : k < xs.length) :
    (s.remove k).error = none ∧ (s.remove k).state.Abs (xs.eraseIdx k) := by
  obtain ⟨addrs, R⟩ := h
  have hk1 : k < s.count := by rw [← R.len_vals]; exact hk
  exact ⟨(R.remove_ok hk1).1, _, (R.remove_ok hk1).2⟩

theorem Abs.swap_linked {s : LinkedList T} {xs : List T} (h : s.Abs xs) {i j : Nat}
    (hi : i < xs.length) (hj : j < xs.length) :
    (s.swap i j).error = none ∧ (s.swap i j).state.Abs (listSwap xs i j) :=
  AbstractList.swap_refines LinkedList.Abs (fun _ _ h => h.size_linked) (fun _ _ h => h.get_linked)
    (fun _ _ h _ v hi => h.set_linked v hi) h hi hj

theorem Abs.of_WF_linked {s : LinkedList T} (h : s.WF) : ∃ xs, s.Abs xs := by
  obtain ⟨addrs, vals, R⟩ := h
  exact ⟨vals, addrs, R⟩

theorem Abs.WF {s : LinkedList T} {xs : List T} (h : s.Abs xs) : s.WF := by
  obtain ⟨addrs, R⟩ := h
  exact ⟨addrs, xs, R⟩

end LinkedList

/-! ## Sequences of calls refine the reference behaviour -/

theorem ArrayList.set_out_of_range_array {T : Type} (s : ArrayList T) {i : Nat}
    (hi : i ≥ s.currentSize) (v : T) : s.set i v = ⟨some .out_of_range, s⟩ := by
  simp [ArrayList.set, hi]

theorem ArrayList.remove_out_of_range_array {T : Type} (s : ArrayList T) {i : Nat}
    (hi : i ≥ s.currentSize) : s.remove i = ⟨some .out_of_range, s⟩ := by
  simp [ArrayList.remove, hi]

theorem ArrayList.swap_out_of_range_array {T : Type} (s : ArrayList T) {i j : Nat}
    (h : i ≥ s.currentSize ∨ j ≥ s.currentSize) : s.swap i j = ⟨some .out_of_range, s⟩ := by
  unfold ArrayList.swap
  rw [if_pos h]

theorem LinkedList.swap_out_of_range_linked {T : Type} (s : LinkedList T) {i j : Nat}
    (h : i ≥ s.count ∨ j ≥ s.count) : s.swap i j = ⟨some .out_of_range, s⟩ :=
  AbstractList.swap_throws _ _ _ s h

theorem Outcome.reply_of_error_none {σ T : Type} {o : Outcome σ} (h : o.error = none) :
    (o.reply : Reply T) = .ok none := by
  simp [Outcome.reply, h]

theorem ArrayList.call_refines_array {T : Type} [Inhabited T] {s : ArrayList T} {xs : List T}
    (h : s.Abs xs) (c : Call T) :
    (s.call c).1 = (listCall xs c).1 ∧ (s.call c).2.Abs (listCall xs c).2 := by
  cases c with
  | add x => exact ⟨Outcome.reply_of_error_none (h.add_array x).1, (h.add_array x).2⟩
  | get i => exact ⟨by simp [ArrayList.call, listCall, h.get_array], h⟩
  | set i v =>
    by_cases hi : i < xs.length
    · simp only [ArrayList.call, listCall, if_pos hi]
      exact ⟨Outcome.reply_of_error_none (h.set_array v hi).1, (h.set_array v hi).2⟩
    · have hi1 : i ≥ s.currentSize := by
        have := h.size_array
        simp only [ArrayList.size] at this
        omega
      simp only [ArrayList.call, listCall, if_neg hi, ArrayList.set_out_of_range_array s hi1]
      exact ⟨rfl, h⟩
  | remove i =>
    by_cases hi : i < xs.length
    · simp only [ArrayList.call, listCall, if_pos hi]
      exact ⟨Outcome.reply_of_error_none (h.remove_array hi).1, (h.remove_array hi).2⟩
    · have hi1 : i ≥ s.currentSize := by
        have := h.size_array
        simp only [ArrayList.size] at this
        omega
      simp only [ArrayList.call, listCall, if_neg hi, ArrayList.remove_out_of_range_array s hi1]
      exact ⟨rfl, h⟩
  | swap i j =>
    by_cases hij : i < xs.length ∧ j < xs.length
    · simp only [ArrayList.call, listCall, if_pos hij]
      exact ⟨Outcome.reply_of_error_none (h.swap_array hij.1 hij.2).1,
        (h.swap_array hij.1 hij.2).2⟩
    · have hi1 : i ≥ s.currentSize ∨ j ≥ s.currentSize := by
        have := h.size_array
        simp only [ArrayList.size] at this
        omega
      simp only [ArrayList.call, listCall, if_neg hij, ArrayList.swap_out_of_range_array s hi1]
      exact ⟨rfl, h⟩

theorem LinkedList.call_refines_linked {T : Type} {s : LinkedList T} {xs : List T}
    (h : s.Abs xs) (c : Call T) :
    (s.call c).1 = (listCall xs c).1 ∧ (s.call c).2.Abs (listCall xs c).2 := by
  cases c with
  | add x => exact ⟨Outcome.reply_of_error_none (h.add_linked x).1, (h.add_linked x).2⟩
  | get i => exact ⟨by simp [LinkedList.call, listCall, h.get_linked], h⟩
  | set i v =>
    by_cases hi : i < xs.length
    · simp only [LinkedList.call, listCall, if_pos hi]
      exact ⟨Outcome.reply_of_error_none (h.set_linked v hi).1, (h.set_linked v hi).2⟩
    · have hi1 : i ≥ s.count := by
        have := h.size_linked
        simp only [LinkedList.size] at this
        omega
      simp only [LinkedList.call, listCall, if_neg hi, LinkedList.set_out_of_range_linked s hi1]
      exact ⟨rfl, h⟩
  | remove i =>
    by_cases hi : i < xs.length
    · simp only [LinkedList.call, listCall, if_pos hi]
      exact ⟨Outcome.reply_of_error_none (h.remove_linked hi).1, (h.remove_linked hi).2⟩
    · have hi1 : i ≥ s.count := by
        have := h.size_linked
        simp only [LinkedList.size] at this
        omega
      simp only [LinkedList.call, listCall, if_neg hi, LinkedList.remove_out_of_range_linked s hi1]
      exact ⟨rfl, h⟩
  | swap i j =>
    by_cases hij : i < xs.length ∧ j < xs.length
    · simp only [LinkedList.call, listCall, if_pos hij]
      exact ⟨Outcome.reply_of_error_none (h.swap_linked hij.1 hij.2).1,
        (h.swap_linked hij.1 hij.2).2⟩
    · have hi1 : i ≥ s.count ∨ j ≥ s.count := by
        have := h.size_linked
        simp only [LinkedList.size] at this
        omega
      simp only [LinkedList.call, listCall, if_neg hij, LinkedList.swap_out_of_range_linked s hi1]
      exact ⟨rfl, h⟩

theorem ArrayList.run_refines_array {T : Type} [Inhabited T] (calls : List (Call T)) :
    ∀ {s : ArrayList T} {xs : List T}, s.Abs xs →
      (s.run calls).1 = (listRun xs calls).1 ∧ (s.run calls).2.Abs (listRun xs calls).2 := by
  induction calls with
  | nil => intro s xs h; exact ⟨rfl, h⟩
  | cons c cs ih =>
    intro s xs h
    obtain ⟨h1, h2⟩ := ArrayList.call_refines_array h c
    obtain ⟨h3, h4⟩ := ih h2
    exact ⟨by simp only [ArrayList.run, listRun, h1, h3], h4⟩

theorem LinkedList.run_refines_linked {T : Type} (calls : List (Call T)) :
    ∀ {s : LinkedList T} {xs : List T}, s.Abs xs →
      (s.run calls).1 = (listRun xs calls).1 ∧ (s.run calls).2.Abs (listRun xs calls).2 := by
  induction calls with
  | nil => intro s xs h; exact ⟨rfl, h⟩
  | cons c cs ih =>
    intro s xs h
    obtain ⟨h1, h2⟩ := LinkedList.call_refines_linked h c
    obtain ⟨h3, h4⟩ := ih h2
    exact ⟨by simp only [LinkedList.run, listRun, h1, h3], h4⟩

theorem ArrayList.Abs.isEmpty_array {T : Type} {s : ArrayList T} {xs : List T} (h : s.Abs xs) :
    s.isEmpty = xs.isEmpty := by
  have := h.size_array
  simp only [ArrayList.size] at this
  cases xs with
  | nil => simp [ArrayList.isEmpty, this]
  | cons x xs => simp [ArrayList.isEmpty, this]

theorem LinkedList.Abs.isEmpty_linked {T : Type} {s : LinkedList T} {xs : List T} (h : s.Abs xs) :
    s.isEmpty = xs.isEmpty := by
  have := h.size_linked
  simp only [LinkedList.size] at this
  cases xs with
  | nil => simp [LinkedList.isEmpty, this]
  | cons x xs => simp [LinkedList.isEmpty, this]

theorem listRun_length {T : Type} (calls : List (Call T)) :
    ∀ xs : List T, (listRun xs calls).2.length + countSuccessfulRemoves calls (listRun xs calls).1
      = xs.length + countAdds calls := by
  induction calls with
  | nil => intro xs; simp [listRun, countSuccessfulRemoves, countAdds]
  | cons c cs ih =>
    intro xs
    have hstep := ih (listCall xs c).2
    have hA : countAdds (c :: cs) = (if c.isAdd then 1 else 0) + countAdds cs := by
      simp only [countAdds, List.filter_cons]
      split
      · simp only [List.length_cons]
        omega
      · simp
    have hR : countSuccessfulRemoves (c :: cs) (listRun xs (c :: cs)).1
        = (if (c.isRemove && (listCall xs c).1.succeeded) then 1 else 0)
          + countSuccessfulRemoves cs (listRun (listCall xs c).2 cs).1 := by
      simp only [countSuccessfulRemoves, listRun, List.zip_cons_cons, List.filter_cons]
      split
      · simp only [List.length_cons]
        omega
      · simp
    have hL : (listCall xs c).2.length
          + (if (c.isRemove && (listCall xs c).1.succeeded) then 1 else 0)
        = xs.length + (if c.isAdd then 1 else 0) := by
      cases c with
      | add x => simp [listCall, Call.isAdd, Call.isRemove]
      | get i => simp [listCall, Call.isAdd, Call.isRemove]
      | set i v =>
        simp only [listCall, Call.isAdd, Call.isRemove]
        split <;> simp
      | remove i =>
        simp only [listCall, Call.isAdd, Call.isRemove]
        split
        · rename_i hi
          simp [Reply.succeeded, List.length_eraseIdx, hi]
          omega
        · simp [Reply.succeeded]
      | swap i j =>
        simp only [listCall, Call.isAdd, Call.isRemove]
        split <;> simp [length_listSwap]
    rw [hA, hR]
    show (listRun (listCall xs c).2 cs).2.length + _ = _
    omega

/-! ## Sample objects are well formed -/

theorem ArrayList.Abs.addAll_array {T : Type} [Inhabited T] {s : ArrayList T} {xs : List T}
    (h : s.Abs xs) (ys : List T) : (s.addAll ys).Abs (xs ++ ys) := by
  induction ys generalizing s xs with
  | nil => simpa [ArrayList.addAll] using h
  | cons y ys ih =>
    have := ih (h.add_array y).2
    simpa [ArrayList.addAll] using this

theorem LinkedList.Abs.addAll_linked {T : Type} {s : LinkedList T} {xs : List T}
    (h : s.Abs xs) (ys : List T) : (s.addAll ys).Abs (xs ++ ys) := by
  induction ys generalizing s xs with
  | nil => simpa [LinkedList.addAll] using h
  | cons y ys ih =>
    have := ih (h.add_linked y).2
    simpa [LinkedList.addAll] using this

theorem sampleArray_abs : sampleArray.Abs [5, 3, 4] := ArrayList.Abs.new_array.addAll_array _

theorem fullArray_abs : fullArray.Abs [0, 1, 2, 3, 4, 5, 6, 7, 8, 9] :=
  ArrayList.Abs.new_array.addAll_array _

theorem sampleLinked_abs : sampleLinked.Abs [5, 3, 4] := LinkedList.Abs.new_linked.addAll_linked _

/-! ## Growth of the `ArrayList` buffer -/

/-- Growth invariant of `ArrayList`: the capacity is `10 * 2^k`, and `k` is positive only
if the previous capacity `10 * 2^(k-1)` was not enough for the current size. -/
theorem ArrayList.growth_new {T : Type} [Inhabited T] :
    (ArrayList.new : ArrayList T).WF ∧
      ∃ k, (ArrayList.new : ArrayList T).capacity = 10 * 2 ^ k ∧
        (k = 0 ∨ 10 * 2 ^ (k - 1) < (ArrayList.new : ArrayList T).currentSize) :=
  ⟨ArrayList.Abs.new_array.1, 0, rfl, Or.inl rfl⟩

theorem ArrayList.growth_add {T : Type} [Inhabited T] {s : ArrayList T} (x : T)
    (h : s.WF ∧ ∃ k, s.capacity = 10 * 2 ^ k ∧ (k = 0 ∨ 10 * 2 ^ (k - 1) < s.currentSize)) :
    (s.add x).state.WF ∧ ∃ k, (s.add x).state.capacity = 10 * 2 ^ k ∧
      (k = 0 ∨ 10 * 2 ^ (k - 1) < (s.add x).state.currentSize) := by
  obtain ⟨hw, k, hk, hmin⟩ := h
  obtain ⟨_, hw1, _, hsz, hcap⟩ := ArrayList.add_spec hw x
  refine ⟨hw1, ?_⟩
  rw [hsz, hcap]
  have hpos : 0 < 2 ^ k := Nat.pow_pos (by omega)
  by_cases hfull : s.currentSize ≥ s.capacity
  · have hne : ¬ (s.capacity = 0) := by omega
    rw [if_pos hfull, if_neg hne]
    refine ⟨k + 1, by rw [hk, Nat.pow_succ]; omega, Or.inr ?_⟩
    have := hw.1
    simp only [Nat.add_sub_cancel]
    omega
  · rw [if_neg hfull]
    refine ⟨k, hk, ?_⟩
    rcases hmin with h0 | h1
    · exact Or.inl h0
    · exact Or.inr (by omega)

theorem ArrayList.growth_addAll {T : Type} [Inhabited T] (xs : List T) :
    ∀ s : ArrayList T,
      (s.WF ∧ ∃ k, s.capacity = 10 * 2 ^ k ∧ (k = 0 ∨ 10 * 2 ^ (k - 1) < s.currentSize)) →
      ((s.addAll xs).WF ∧ ∃ k, (s.addAll xs).capacity = 10 * 2 ^ k ∧
        (k = 0 ∨ 10 * 2 ^ (k - 1) < (s.addAll xs).currentSize)) := by
  induction xs with
  | nil => intro s h; exact h
  | cons x xs ih => intro s h; exact ih _ (ArrayList.growth_add x h)

/-! ## The claims -/

/-- C1: on an `ArrayList` and on a `LinkedList`, for every state and every index with
`index ≥ size()`, each of `get(index)`, `set(index, v)` and `remove(index)` throws
`out_of_range`, and the object is left exactly as it was (hence `size()` and `get(i)` for
every `i` are the same as before the call). -/
theorem C1_invalid_index_throws_and_leaves_container {T : Type} (a : ArrayList T)
    (l : LinkedList T) (ia il : Nat) (v : T) (ha : ia ≥ a.size) (hl : il ≥ l.size) :
    (a.get ia = .error .out_of_range ∧
      (a.set ia v).error = some .out_of_range ∧ (a.set ia v).state = a ∧
      (a.set ia v).state.size = a.size ∧ (∀ i, (a.set ia v).state.get i = a.get i) ∧
      (a.remove ia).error = some .out_of_range ∧ (a.remove ia).state = a ∧
      (a.remove ia).state.size = a.size ∧ (∀ i, (a.remove ia).state.get i = a.get i)) ∧
    (l.get il = .error .out_of_range ∧
      (l.set il v).error = some .out_of_range ∧ (l.set il v).state = l ∧
      (l.set il v).state.size = l.size ∧ (∀ i, (l.set il v).state.get i = l.get i) ∧
      (l.remove il).error = some .out_of_range ∧ (l.remove il).state = l ∧
      (l.remove il).state.size = l.size ∧ (∀ i, (l.remove il).state.get i = l.get i)) := by
  have ha1 : ia ≥ a.currentSize := ha
  have hl1 : il ≥ l.count := hl
  have e1 : a.set ia v = ⟨some .out_of_range, a⟩ := by simp [ArrayList.set, ha1]
  have e2 : a.remove ia = ⟨some .out_of_range, a⟩ := by simp [ArrayList.remove, ha1]
  have e3 : a.get ia = .error .out_of_range := by simp [ArrayList.get, ha1]
  rw [e1, e2, e3, LinkedList.set_out_of_range_linked l hl1 v,
    LinkedList.remove_out_of_range_linked l hl1, LinkedList.get_out_of_range_linked l hl1]
  exact ⟨⟨rfl, rfl, rfl, rfl, fun _ => rfl, rfl, rfl, rfl, fun _ => rfl⟩,
    ⟨rfl, rfl, rfl, rfl, fun _ => rfl, rfl, rfl, rfl, fun _ => rfl⟩⟩

/-- Witness of C1 at `sampleArray`, `sampleLinked` (three elements each) and index 3. -/
theorem C1_witness :
    (3 ≥ sampleArray.size ∧ 3 ≥ sampleLinked.size) ∧
      sampleArray.get 3 = .error .out_of_range ∧
      (sampleLinked.remove 3).state = sampleLinked :=
  ⟨⟨by decide, by decide⟩,
    (C1_invalid_index_throws_and_leaves_container sampleArray sampleLinked 3 3 7
      (by decide) (by decide)).1.1,
    (C1_invalid_index_throws_and_leaves_container sampleArray sampleLinked 3 3 7
      (by decide) (by decide)).2.2.2.2.2.2.2.1⟩

/-- C2: on a well-formed `ArrayList` and a well-formed `LinkedList` of size `n`, `add(x)`
returns normally and afterwards `size()` is `n + 1`, `get(n)` returns `x` and `get(i)`
returns what it returned before for every `i < n`.  For `ArrayList` this covers the full
buffer (`currentSize = capacity`), where `add` reallocates. -/
theorem C2_add_appends {T : Type} [Inhabited T] (a : ArrayList T) (l : LinkedList T) (x : T)
    (ha : a.WF) (hl : l.WF) :
    ((a.add x).error = none ∧ (a.add x).state.size = a.size + 1 ∧
      (a.add x).state.get a.size = .ok x ∧
      ∀ i, i < a.size → (a.add x).state.get i = a.get i) ∧
    ((l.add x).error = none ∧ (l.add x).state.size = l.size + 1 ∧
      (l.add x).state.get l.size = .ok x ∧
      ∀ i, i < l.size → (l.add x).state.get i = l.get i) := by
  have hA := ArrayList.Abs.of_WF_array ha
  obtain ⟨ys, hL⟩ := LinkedList.Abs.of_WF_linked hl
  obtain ⟨a1, a2⟩ := hA.add_array x
  obtain ⟨l1, l2⟩ := hL.add_linked x
  refine ⟨⟨a1, ?_, ?_, ?_⟩, ⟨l1, ?_, ?_, ?_⟩⟩
  · rw [a2.size_array, hA.size_array]
    simp
  · rw [a2.get_array, hA.size_array, listGet_append_last]
  · intro i hi
    rw [hA.size_array] at hi
    rw [a2.get_array, hA.get_array, listGet_append_lt _ _ hi]
  · rw [l2.size_linked, hL.size_linked]
    simp
  · rw [l2.get_linked, hL.size_linked, listGet_append_last]
  · intro i hi
    rw [hL.size_linked] at hi
    rw [l2.get_linked, hL.get_linked, listGet_append_lt _ _ hi]

/-- Witness of C2 at the full `ArrayList` `fullArray` (the call reallocates) and
`sampleLinked`. -/
theorem C2_witness :
    (fullArray.WF ∧ sampleLinked.WF) ∧
      (fullArray.add 10).state.get fullArray.size = .ok 10 ∧
      (sampleLinked.add 10).state.size = sampleLinked.size + 1 :=
  ⟨⟨fullArray_abs.1, sampleLinked_abs.WF⟩,
    (C2_add_appends fullArray sampleLinked 10 fullArray_abs.1 sampleLinked_abs.WF).1.2.2.1,
    (C2_add_appends fullArray sampleLinked 10 fullArray_abs.1 sampleLinked_abs.WF).2.2.1⟩

/-- C3: on a well-formed `ArrayList` and a well-formed `LinkedList` of size `n`, for every
`k < n`, `remove(k)` returns normally and afterwards `size()` is `n - 1`, `get(i)` returns
the old `get(i)` for every `i < k` and the old `get(i + 1)` for every `k ≤ i < n - 1`. -/
theorem C3_remove_shifts_down {T : Type} (a : ArrayList T) (l : LinkedList T) (ka kl : Nat)
    (ha : a.WF) (hl : l.WF) (hka : ka < a.size) (hkl : kl < l.size) :
    ((a.remove ka).error = none ∧ (a.remove ka).state.size = a.size - 1 ∧
      (∀ i, i < ka → (a.remove ka).state.get i = a.get i) ∧
      (∀ i, ka ≤ i → i < a.size - 1 → (a.remove ka).state.get i = a.get (i + 1))) ∧
    ((l.remove kl).error = none ∧ (l.remove kl).state.size = l.size - 1 ∧
      (∀ i, i < kl → (l.remove kl).state.get i = l.get i) ∧
      (∀ i, kl ≤ i → i < l.size - 1 → (l.remove kl).state.get i = l.get (i + 1))) := by
  have hA := ArrayList.Abs.of_WF_array ha
  obtain ⟨ys, hL⟩ := LinkedList.Abs.of_WF_linked hl
  rw [hA.size_array] at hka
  rw [hL.size_linked] at hkl
  obtain ⟨a1, a2⟩ := hA.remove_array hka
  obtain ⟨l1, l2⟩ := hL.remove_linked hkl
  refine ⟨⟨a1, ?_, ?_, ?_⟩, ⟨l1, ?_, ?_, ?_⟩⟩
  · rw [a2.size_array, hA.size_array, List.length_eraseIdx, if_pos hka]
  · intro i hi
    rw [a2.get_array, hA.get_array, listGet_eraseIdx_lt _ hi]
  · intro i hi _
    rw [a2.get_array, hA.get_array, listGet_eraseIdx_ge _ hi]
  · rw [l2.size_linked, hL.size_linked, List.length_eraseIdx, if_pos hkl]
  · intro i hi
    rw [l2.get_linked, hL.get_linked, listGet_eraseIdx_lt _ hi]
  · intro i hi _
    rw [l2.get_linked, hL.get_linked, listGet_eraseIdx_ge _ hi]

/-- Witness of C3: removing index 1 of `sampleArray` and index 0 of `sampleLinked`. -/
theorem C3_witness :
    (sampleArray.WF ∧ sampleLinked.WF ∧ 1 < sampleArray.size ∧ 0 < sampleLinked.size) ∧
      (sampleArray.remove 1).state.size = sampleArray.size - 1 ∧
      (sampleLinked.remove 0).error = none :=
  ⟨⟨sampleArray_abs.1, sampleLinked_abs.WF, by decide, by decide⟩,
    (C3_remove_shifts_down sampleArray sampleLinked 1 0 sampleArray_abs.1 sampleLinked_abs.WF
      (by decide) (by decide)).1.2.1,
    (C3_remove_shifts_down sampleArray sampleLinked 1 0 sampleArray_abs.1 sampleLinked_abs.WF
      (by decide) (by decide)).2.1⟩

/-- C4: on a well-formed `ArrayList` and a well-formed `LinkedList`, for every valid index
`i < size()` and every value `v`, `set(i, v)` returns normally and a following `get(i)`
returns `v`. -/
theorem C4_set_then_get {T : Type} (a : ArrayList T) (l : LinkedList T) (ia il : Nat) (v : T)
    (ha : a.WF) (hl : l.WF) (hia : ia < a.size) (hil : il < l.size) :
    ((a.set ia v).error = none ∧ (a.set ia v).state.get ia = .ok v) ∧
    ((l.set il v).error = none ∧ (l.set il v).state.get il = .ok v) := by
  have hA := ArrayList.Abs.of_WF_array ha
  obtain ⟨ys, hL⟩ := LinkedList.Abs.of_WF_linked hl
  rw [hA.size_array] at hia
  rw [hL.size_linked] at hil
  obtain ⟨a1, a2⟩ := hA.set_array v hia
  obtain ⟨l1, l2⟩ := hL.set_linked v hil
  exact ⟨⟨a1, by rw [a2.get_array, listGet_set_same _ _ hia]⟩,
    ⟨l1, by rw [l2.get_linked, listGet_set_same _ _ hil]⟩⟩

/-- Witness of C4: `set(2, 9)` on `sampleArray` and `set(0, 9)` on `sampleLinked`. -/
theorem C4_witness :
    (sampleArray.WF ∧ sampleLinked.WF ∧ 2 < sampleArray.size ∧ 0 < sampleLinked.size) ∧
      (sampleArray.set 2 9).state.get 2 = .ok 9 ∧
      (sampleLinked.set 0 9).state.get 0 = .ok 9 :=
  ⟨⟨sampleArray_abs.1, sampleLinked_abs.WF, by decide, by decide⟩,
    (C4_set_then_get sampleArray sampleLinked 2 0 9 sampleArray_abs.1 sampleLinked_abs.WF
      (by decide) (by decide)).1.2,
    (C4_set_then_get sampleArray sampleLinked 2 0 9 sampleArray_abs.1 sampleLinked_abs.WF
      (by decide) (by decide)).2.2⟩

/-- C5: apply the same finite sequence of calls (including calls that throw
`out_of_range`) to a freshly constructed `ArrayList` and to a freshly constructed
`LinkedList`.  Every call gets the same reply on both (so it fails on one iff it fails on the
other), and afterwards `size()`, `isEmpty()` and `get(i)` for every `i` agree. -/
theorem C5_backings_are_observably_equal {T : Type} [Inhabited T] (calls : List (Call T)) :
    ((ArrayList.new : ArrayList T).run calls).1 = ((LinkedList.new : LinkedList T).run calls).1 ∧
    ((ArrayList.new : ArrayList T).run calls).2.size
      = ((LinkedList.new : LinkedList T).run calls).2.size ∧
    ((ArrayList.new : ArrayList T).run calls).2.isEmpty
      = ((LinkedList.new : LinkedList T).run calls).2.isEmpty ∧
    ∀ i, ((ArrayList.new : ArrayList T).run calls).2.get i
      = ((LinkedList.new : LinkedList T).run calls).2.get i := by
  obtain ⟨a1, a2⟩ := ArrayList.run_refines_array calls (ArrayList.Abs.new_array (T := T))
  obtain ⟨l1, l2⟩ := LinkedList.run_refines_linked calls (LinkedList.Abs.new_linked (T := T))
  refine ⟨by rw [a1, l1], by rw [a2.size_array, l2.size_linked],
    by rw [a2.isEmpty_array, l2.isEmpty_linked], fun i => ?_⟩
  rw [a2.get_array, l2.get_linked]

/-- C6: on a well-formed `ArrayList` (its own `swap`) and a well-formed `LinkedList` (the
inherited `List::swap`), for valid indices `i, j < size()`, two `swap(i, j)` calls in a row
both return normally and restore the contents: `size()` and `get(k)` for every `k` are what
they were before the first call. -/
theorem C6_swap_twice_restores {T : Type} (a : ArrayList T) (l : LinkedList T)
    (ia ja il jl : Nat) (ha : a.WF) (hl : l.WF) (hia : ia < a.size) (hja : ja < a.size)
    (hil : il < l.size) (hjl : jl < l.size) :
    ((a.swap ia ja).error = none ∧ ((a.swap ia ja).state.swap ia ja).error = none ∧
      ((a.swap ia ja).state.swap ia ja).state.size = a.size ∧
      ∀ k, ((a.swap ia ja).state.swap ia ja).state.get k = a.get k) ∧
    ((l.swap il jl).error = none ∧ ((l.swap il jl).state.swap il jl).error = none ∧
      ((l.swap il jl).state.swap il jl).state.size = l.size ∧
      ∀ k, ((l.swap il jl).state.swap il jl).state.get k = l.get k) := by
  have hA := ArrayList.Abs.of_WF_array ha
  obtain ⟨ys, hL⟩ := LinkedList.Abs.of_WF_linked hl
  rw [hA.size_array] at hia hja
  rw [hL.size_linked] at hil hjl
  obtain ⟨a1, a2⟩ := hA.swap_array hia hja
  obtain ⟨a3, a4⟩ := a2.swap_array (by rw [length_listSwap]; exact hia)
    (by rw [length_listSwap]; exact hja)
  obtain ⟨l1, l2⟩ := hL.swap_linked hil hjl
  obtain ⟨l3, l4⟩ := l2.swap_linked (by rw [length_listSwap]; exact hil)
    (by rw [length_listSwap]; exact hjl)
  rw [listSwap_listSwap hia hja] at a4
  rw [listSwap_listSwap hil hjl] at l4
  exact ⟨⟨a1, a3, by rw [a4.size_array, hA.size_array],
      fun k => by rw [a4.get_array, hA.get_array]⟩,
    ⟨l1, l3, by rw [l4.size_linked, hL.size_linked],
      fun k => by rw [l4.get_linked, hL.get_linked]⟩⟩

/-- Witness of C6: `swap(0, 2)` twice on `sampleArray` and `swap(1, 1)` twice on
`sampleLinked`. -/
theorem C6_witness :
    (sampleArray.WF ∧ sampleLinked.WF ∧ 0 < sampleArray.size ∧ 2 < sampleArray.size ∧
      1 < sampleLinked.size) ∧
      ((sampleArray.swap 0 2).state.swap 0 2).state.get 0 = sampleArray.get 0 ∧
      ((sampleLinked.swap 1 1).state.swap 1 1).state.size = sampleLinked.size :=
  ⟨⟨sampleArray_abs.1, sampleLinked_abs.WF, by decide, by decide, by decide⟩,
    (C6_swap_twice_restores sampleArray sampleLinked 0 2 1 1 sampleArray_abs.1
      sampleLinked_abs.WF (by decide) (by decide) (by decide) (by decide)).1.2.2.2 0,
    (C6_swap_twice_restores sampleArray sampleLinked 0 2 1 1 sampleArray_abs.1
      sampleLinked_abs.WF (by decide) (by decide) (by decide) (by decide)).2.2.2.1⟩

/-- C7: on a well-formed `ArrayList` (`ArrayList::swap`) and a well-formed `LinkedList`
(the inherited `List::swap`), `swap(index1, index2)` throws `out_of_range` if and only if
`index1 ≥ size()` or `index2 ≥ size()`, it returns normally otherwise, and whenever it does not
return normally the object is exactly what it was: nothing has been overwritten, also when
only one of the two indices is invalid. -/
theorem C7_swap_fails_iff_invalid_index {T : Type} (a : ArrayList T) (l : LinkedList T)
    (ia ja il jl : Nat) (ha : a.WF) (hl : l.WF) :
    (((a.swap ia ja).error = some .out_of_range ↔ (ia ≥ a.size ∨ ja ≥ a.size)) ∧
      ((a.swap ia ja).error = none ↔ ¬ (ia ≥ a.size ∨ ja ≥ a.size)) ∧
      ((a.swap ia ja).error ≠ none → (a.swap ia ja).state = a ∧
        (a.swap ia ja).state.size = a.size ∧ ∀ k, (a.swap ia ja).state.get k = a.get k)) ∧
    (((l.swap il jl).error = some .out_of_range ↔ (il ≥ l.size ∨ jl ≥ l.size)) ∧
      ((l.swap il jl).error = none ↔ ¬ (il ≥ l.size ∨ jl ≥ l.size)) ∧
      ((l.swap il jl).error ≠ none → (l.swap il jl).state = l ∧
        (l.swap il jl).state.size = l.size ∧ ∀ k, (l.swap il jl).state.get k = l.get k)) := by
  have hA := ArrayList.Abs.of_WF_array ha
  obtain ⟨ys, hL⟩ := LinkedList.Abs.of_WF_linked hl
  constructor
  · by_cases hinv : ia ≥ a.size ∨ ja ≥ a.size
    · rw [ArrayList.swap_out_of_range_array a hinv]
      exact ⟨⟨fun _ => hinv, fun _ => rfl⟩, ⟨fun h => by simp at h, fun h => absurd hinv h⟩,
        fun _ => ⟨rfl, rfl, fun _ => rfl⟩⟩
    · have h1 : ia < a.toList.length := by rw [← hA.size_array]; omega
      have h2 : ja < a.toList.length := by rw [← hA.size_array]; omega
      obtain ⟨e, _⟩ := hA.swap_array h1 h2
      rw [e]
      exact ⟨⟨fun h => by simp at h, fun h => absurd h hinv⟩, ⟨fun _ => hinv, fun _ => rfl⟩,
        fun h => absurd rfl h⟩
  · by_cases hinv : il ≥ l.size ∨ jl ≥ l.size
    · rw [LinkedList.swap_out_of_range_linked l hinv]
      exact ⟨⟨fun _ => hinv, fun _ => rfl⟩, ⟨fun h => by simp at h, fun h => absurd hinv h⟩,
        fun _ => ⟨rfl, rfl, fun _ => rfl⟩⟩
    · have h1 : il < ys.length := by rw [← hL.size_linked]; omega
      have h2 : jl < ys.length := by rw [← hL.size_linked]; omega
      obtain ⟨e, _⟩ := hL.swap_linked h1 h2
      rw [e]
      exact ⟨⟨fun h => by simp at h, fun h => absurd h hinv⟩, ⟨fun _ => hinv, fun _ => rfl⟩,
        fun h => absurd rfl h⟩

/-- Witness of C7: one valid and one invalid index, `swap(0, 3)` on `sampleArray` and
`swap(5, 1)` on `sampleLinked`. -/
theorem C7_witness :
    (sampleArray.WF ∧ sampleLinked.WF) ∧
      ((sampleArray.swap 0 3).error = some .out_of_range ↔
        (0 ≥ sampleArray.size ∨ 3 ≥ sampleArray.size)) ∧
      ((sampleLinked.swap 5 1).error = some .out_of_range ↔
        (5 ≥ sampleLinked.size ∨ 1 ≥ sampleLinked.size)) :=
  ⟨⟨sampleArray_abs.1, sampleLinked_abs.WF⟩,
    (C7_swap_fails_iff_invalid_index sampleArray sampleLinked 0 3 5 1 sampleArray_abs.1
      sampleLinked_abs.WF).1.1,
    (C7_swap_fails_iff_invalid_index sampleArray sampleLinked 0 3 5 1 sampleArray_abs.1
      sampleLinked_abs.WF).2.1⟩

/-- C8: after `n` successive `add` calls on a freshly constructed `ArrayList` (sizes are
unbounded naturals, so no `size_t` overflow), the capacity is at least `n` and equals
`10 * 2^k` for the smallest `k` with `10 * 2^k ≥ n`; it is 10 after at most 10 adds and 20
after 11 adds. -/
theorem C8_capacity_doubles_from_ten {T : Type} [Inhabited T] (xs : List T) :
    xs.length ≤ ((ArrayList.new : ArrayList T).addAll xs).capacity ∧
    (∃ k, ((ArrayList.new : ArrayList T).addAll xs).capacity = 10 * 2 ^ k ∧
      xs.length ≤ 10 * 2 ^ k ∧ ∀ j, xs.length ≤ 10 * 2 ^ j → k ≤ j) ∧
    (xs.length ≤ 10 → ((ArrayList.new : ArrayList T).addAll xs).capacity = 10) ∧
    (xs.length = 11 → ((ArrayList.new : ArrayList T).addAll xs).capacity = 20) := by
  obtain ⟨hw, k, hk, hmin⟩ := ArrayList.growth_addAll xs _ (ArrayList.growth_new (T := T))
  have hsz : ((ArrayList.new : ArrayList T).addAll xs).currentSize = xs.length := by
    have := (ArrayList.Abs.new_array (T := T)).addAll_array xs
    simpa [ArrayList.size] using this.size_array
  rw [hsz] at hmin
  have hle : xs.length ≤ 10 * 2 ^ k := by
    have := hw.1
    rw [hsz, hk] at this
    exact this
  have hsmall : ∀ j, xs.length ≤ 10 * 2 ^ j → k ≤ j := by
    intro j hj
    rcases hmin with h0 | h1
    · omega
    · by_contra hlt
      have : 2 ^ j ≤ 2 ^ (k - 1) := Nat.pow_le_pow_right (by omega) (by omega)
      omega
  rw [hk]
  refine ⟨hle, ⟨k, rfl, hle, hsmall⟩, ?_, ?_⟩
  · intro h10
    have : k = 0 := by
      have := hsmall 0 (by simpa using h10)
      omega
    rw [this]
    rfl
  · intro h11
    have hk1 : k ≤ 1 := hsmall 1 (by rw [h11]; decide)
    have hk0 : k ≠ 0 := by
      intro e
      rw [e, h11] at hle
      simp at hle
    have : k = 1 := by omega
    rw [this]
    rfl

/-- C9: after any finite sequence of `add`/`get`/`set`/`remove`/`swap` calls on a freshly
constructed `ArrayList` or `LinkedList`, `size()` equals the number of `add` calls minus the
number of `remove` calls that returned normally. -/
theorem C9_size_is_adds_minus_successful_removes {T : Type} [Inhabited T]
    (calls : List (Call T)) :
    ((((ArrayList.new : ArrayList T).run calls).2.size : Int)
      = (countAdds calls : Int)
        - (countSuccessfulRemoves calls ((ArrayList.new : ArrayList T).run calls).1 : Int)) ∧
    ((((LinkedList.new : LinkedList T).run calls).2.size : Int)
      = (countAdds calls : Int)
        - (countSuccessfulRemoves calls ((LinkedList.new : LinkedList T).run calls).1 : Int)) := by
  obtain ⟨a1, a2⟩ := ArrayList.run_refines_array calls (ArrayList.Abs.new_array (T := T))
  obtain ⟨l1, l2⟩ := LinkedList.run_refines_linked calls (LinkedList.Abs.new_linked (T := T))
  have h := listRun_length calls ([] : List T)
  rw [a1, l1, a2.size_array, l2.size_linked]
  simp only [List.length_nil] at h
  omega

/-- C10: `TextAnalyzer::sort` on an analyzer with no strategy installed returns normally
(no exception), leaves the container exactly as it was (same size, same element at every
index) whatever the container and the comparator, and leaves the analyzer without a
strategy; its only effect is one line on the diagnostic channel. -/
theorem C10_sort_without_strategy_is_noop {E : Type} (a : TextAnalyzer E) (c : AnyList E)
    (cmp : E → E → Bool) (h : a.sortStrategy = none) :
    (a.sort c cmp).error = none ∧ (a.sort c cmp).entityList = c ∧
    (a.sort c cmp).entityList.size = c.size ∧
    (∀ i, (a.sort c cmp).entityList.get i = c.get i) ∧
    (a.sort c cmp).analyzer.sortStrategy = none ∧
    (a.sort c cmp).diagnostics = ["Error: Sorting strategy is not set!"] := by
  have e : a.sort c cmp = ⟨a, c, none, ["Error: Sorting strategy is not set!"]⟩ := by
    simp only [TextAnalyzer.sort, h]
  rw [e]
  exact ⟨rfl, rfl, rfl, fun _ => rfl, h, rfl⟩

/-- Witness of C10: a default-constructed analyzer and the `ArrayList` `sampleArray`. -/
theorem C10_witness :
    (TextAnalyzer.new : TextAnalyzer Nat).sortStrategy = none ∧
      ((TextAnalyzer.new : TextAnalyzer Nat).sort (.array sampleArray)
        (fun x y => decide (x < y))).entityList = .array sampleArray :=
  ⟨rfl, (C10_sort_without_strategy_is_noop TextAnalyzer.new (.array sampleArray)
    (fun x y => decide (x < y)) rfl).2.1⟩

/-! ## The structural invariant of `LinkedList` -/

namespace Heap

variable {T : Type}

theorem advance_succ (h : Heap T) (k : Nat) (cur : Option Nat) :
    h.advance (k + 1) cur =
      match h.advance k cur with
      | none => none
      | some p =>
        match h.read p with
        | none => none
        | some nd => some nd.next := by
  induction k generalizing cur with
  | zero =>
    cases hr : h.read cur <;> simp [advance, hr]
  | succ k ih =>
    rw [advance]
    cases hr : h.read cur with
    | none => simp [advance, hr]
    | some nd =>
      simp only []
      rw [ih nd.next]
      conv_rhs => rw [advance, hr]

theorem advance_add (h : Heap T) (k m : Nat) (cur : Option Nat) :
    h.advance (k + m) cur =
      match h.advance k cur with
      | none => none
      | some p => h.advance m p := by
  induction k generalizing cur with
  | zero => simp [advance]
  | succ k ih =>
    have e : k + 1 + m = (k + m) + 1 := by omega
    rw [e, advance, advance]
    cases hr : h.read cur with
    | none => rfl
    | some nd => exact ih nd.next

end Heap

namespace LinkedList

variable {T : Type}

theorem Repr.invariant {s : LinkedList T} {addrs : List Nat} {vals : List T}
    (R : Repr s addrs vals) : Invariant s := by
  have hadv : ∀ k, k < s.count → ∀ a, s.heap.advance k s.head = some (some a) →
      addrs[k]? = some a := by
    intro k hk a ha
    have h := R.advance_repr k 0 (by omega)
    rw [← R.head_eq, Nat.zero_add, ha] at h
    exact (Option.some.inj h).symm
  exact {
    head_null := by
      rw [R.head_eq, List.getElem?_eq_none_iff, R.len_addrs]
      omega
    tail_null := by
      rw [R.tail_eq]
      by_cases h0 : s.count = 0
      · simp [h0]
      · rw [if_neg h0, List.getElem?_eq_none_iff, R.len_addrs]
        omega
    visits := by
      intro k hk
      obtain ⟨a, ha⟩ := R.addr_of_lt hk
      obtain ⟨v, _, hr⟩ := R.cell k a ha
      refine ⟨a, _, ?_, hr⟩
      have h := R.advance_repr k 0 (by omega)
      rw [← R.head_eq, Nat.zero_add, ha] at h
      exact h
    ends_at_tail := by
      intro hpos
      have h := R.advance_repr (s.count - 1) 0 (by omega)
      rw [← R.head_eq, Nat.zero_add] at h
      rw [h, R.tail_eq, if_neg (by omega)]
    tail_next := by
      intro nd hr
      by_cases h0 : s.count = 0
      · rw [R.tail_eq, if_pos h0] at hr
        exact Option.noConfusion hr
      · obtain ⟨t, ht⟩ := R.addr_of_lt (show s.count - 1 < s.count by omega)
        obtain ⟨v, _, hc⟩ := R.cell _ t ht
        rw [R.tail_eq, if_neg h0, ht, hc] at hr
        have hn : addrs[s.count - 1 + 1]? = none :=
          List.getElem?_eq_none (by rw [R.len_addrs]; omega)
        rw [← Option.some.inj hr]
        exact hn
    head_prev := by
      intro nd hr
      rw [R.head_eq] at hr
      cases h0 : addrs[0]? with
      | none =>
        rw [h0] at hr
        exact Option.noConfusion hr
      | some a =>
        obtain ⟨v, _, hc⟩ := R.cell 0 a h0
        rw [h0, hc] at hr
        rw [← Option.some.inj hr]
        rfl
    prev_next := by
      intro k a nd hk ha hr p hp
      have hka := hadv k hk a ha
      obtain ⟨v, _, hc⟩ := R.cell k a hka
      rw [hc] at hr
      rw [← Option.some.inj hr] at hp
      have hk0 : k ≠ 0 := by
        intro e
        rw [e] at hp
        exact Option.noConfusion hp
      have hp1 : addrs[k - 1]? = some p := by
        have : (if k = 0 then none else addrs[k - 1]?) = some p := hp
        rw [if_neg hk0] at this
        exact this
      obtain ⟨w, _, hcp⟩ := R.cell (k - 1) p hp1
      refine ⟨_, hcp, ?_⟩
      show addrs[k - 1 + 1]? = some a
      have : k - 1 + 1 = k := by omega
      rw [this, hka]
    next_prev := by
      intro k a nd hk ha hr q hq
      have hka := hadv k hk a ha
      obtain ⟨v, _, hc⟩ := R.cell k a hka
      rw [hc] at hr
      rw [← Option.some.inj hr] at hq
      have hq1 : addrs[k + 1]? = some q := hq
      obtain ⟨w, _, hcq⟩ := R.cell (k + 1) q hq1
      refine ⟨_, hcq, ?_⟩
      show (if k + 1 = 0 then none else addrs[k + 1 - 1]?) = some a
      rw [if_neg (by omega)]
      exact hka }

theorem Invariant.build {s : LinkedList T} (I : Invariant s) :
    ∀ n, n ≤ s.count → ∃ (addrs : List Nat) (vals : List T),
      addrs.length = n ∧ vals.length = n ∧
      ∀ k, k < n → ∃ a nd, addrs[k]? = some a ∧ vals[k]? = some nd.value ∧
        s.heap.advance k s.head = some (some a) ∧ s.heap.read (some a) = some nd := by
  intro n
  induction n with
  | zero => intro _; exact ⟨[], [], rfl, rfl, fun k hk => absurd hk (Nat.not_lt_zero k)⟩
  | succ n ih =>
    intro hn
    obtain ⟨addrs, vals, h1, h2, h3⟩ := ih (by omega)
    obtain ⟨a, nd, ha, hr⟩ := I.visits n (by omega)
    refine ⟨addrs ++ [a], vals ++ [nd.value], by simp [h1], by simp [h2], ?_⟩
    intro k hk
    by_cases hkn : k < n
    · obtain ⟨b, ndb, e1, e2, e3, e4⟩ := h3 k hkn
      refine ⟨b, ndb, ?_, ?_, e3, e4⟩
      · rw [List.getElem?_append_left (by omega), e1]
      · rw [List.getElem?_append_left (by omega), e2]
    · have hk2 : k = n := by omega
      subst hk2
      refine ⟨a, nd, ?_, ?_, ha, hr⟩
      · rw [List.getElem?_append_right (by omega), h1]
        simp
      · rw [List.getElem?_append_right (by omega), h2]
        simp

theorem Invariant.wf {s : LinkedList T} (I : Invariant s) : s.WF := by
  obtain ⟨addrs, vals, hla, hlv, F⟩ := I.build s.count (le_refl _)
  -- the `next` field of the k-th node
  have hnext : ∀ k a nd, k < s.count → s.heap.advance k s.head = some (some a) →
      s.heap.read (some a) = some nd → nd.next = addrs[k + 1]? := by
    intro k a nd hk ha hr
    by_cases hlast : k + 1 < s.count
    · obtain ⟨b, _, e1, _, e3, _⟩ := F (k + 1) hlast
      have h := Heap.advance_succ s.heap k s.head
      rw [ha] at h
      simp only [hr] at h
      rw [e3] at h
      rw [e1, ← Option.some.inj h]
    · have hk1 : k = s.count - 1 := by omega
      have hend := I.ends_at_tail (by omega)
      rw [← hk1, ha] at hend
      have htl : s.tail = some a := (Option.some.inj hend).symm
      have := I.tail_next nd (by rw [htl]; exact hr)
      rw [this, List.getElem?_eq_none (by omega)]
  have hprev : ∀ k a nd, k < s.count → s.heap.advance k s.head = some (some a) →
      s.heap.read (some a) = some nd →
      nd.prev = if k = 0 then none else addrs[k - 1]? := by
    intro k a nd hk ha hr
    by_cases hk0 : k = 0
    · subst hk0
      rw [if_pos rfl]
      have hh : s.head = some a := by
        have : some s.head = some (some a) := ha
        exact Option.some.inj this
      exact I.head_prev nd (by rw [hh]; exact hr)
    · rw [if_neg hk0]
      obtain ⟨b, ndb, e1, _, e3, e4⟩ := F (k - 1) (by omega)
      have hnb := hnext (k - 1) b ndb (by omega) e3 e4
      obtain ⟨a', _, e1', _, e3', _⟩ := F k hk
      have haa : a' = a := by
        rw [ha] at e3'
        exact (Option.some.inj (Option.some.inj e3')).symm
      subst haa
      have hkk : k - 1 + 1 = k := by omega
      rw [hkk, e1'] at hnb
      obtain ⟨qn, hq1, hq2⟩ := I.next_prev (k - 1) b ndb (by omega) e3 e4 a' hnb
      rw [hr] at hq1
      rw [Option.some.inj hq1, hq2, e1]
  -- the walk reaches null after exactly `count` steps
  have hend : 0 < s.count → s.heap.advance s.count s.head = some none := by
    intro hpos
    obtain ⟨a, nd, _, _, e3, e4⟩ := F (s.count - 1) (by omega)
    have h := Heap.advance_succ s.heap (s.count - 1) s.head
    have hcc : s.count - 1 + 1 = s.count := by omega
    rw [hcc, e3] at h
    simp only [e4] at h
    have hn := hnext (s.count - 1) a nd (by omega) e3 e4
    rw [hcc, List.getElem?_eq_none (by omega)] at hn
    rw [h, hn]
  refine ⟨addrs, vals, ?_⟩
  exact {
    len_addrs := hla
    len_vals := hlv
    nodup := by
      rw [List.nodup_iff_getElem?_ne_getElem?]
      intro i j hij hj heq
      rw [hla] at hj
      obtain ⟨a, _, e1, _, e3, _⟩ := F i (by omega)
      obtain ⟨b, _, f1, _, f3, _⟩ := F j hj
      have hab : a = b := by
        rw [e1, f1] at heq
        exact Option.some.inj heq
      subst hab
      have h1 := Heap.advance_add s.heap i (s.count - j) s.head
      have h2 := Heap.advance_add s.heap j (s.count - j) s.head
      rw [e3] at h1
      rw [f3] at h2
      simp only at h1 h2
      have hjc : j + (s.count - j) = s.count := by omega
      rw [hjc, hend (by omega)] at h2
      rw [← h2] at h1
      obtain ⟨c, _, _, _, g3, _⟩ := F (i + (s.count - j)) (by omega)
      rw [g3] at h1
      exact Option.noConfusion (Option.some.inj h1)
    head_eq := by
      by_cases h0 : s.count = 0
      · rw [I.head_null.mpr h0, List.getElem?_eq_none (by omega)]
      · obtain ⟨a, _, e1, _, e3, _⟩ := F 0 (by omega)
        have : some s.head = some (some a) := e3
        rw [Option.some.inj this, e1]
    tail_eq := by
      by_cases h0 : s.count = 0
      · rw [if_pos h0, I.tail_null.mpr h0]
      · rw [if_neg h0]
        obtain ⟨a, _, e1, _, e3, _⟩ := F (s.count - 1) (by omega)
        have := I.ends_at_tail (by omega)
        rw [e3] at this
        rw [← Option.some.inj this, e1]
    cell := by
      intro i a hia
      have hi : i < s.count := by
        by_contra hc
        rw [List.getElem?_eq_none (by omega)] at hia
        exact Option.noConfusion hia
      obtain ⟨a', nd, e1, e2, e3, e4⟩ := F i hi
      have haa : a' = a := by
        rw [hia] at e1
        exact (Option.some.inj e1).symm
      subst haa
      refine ⟨nd.value, e2, ?_⟩
      rw [e4, ← hnext i a' nd hi e3 e4, ← hprev i a' nd hi e3 e4] }

theorem invariant_iff_wf (s : LinkedList T) : Invariant s ↔ s.WF :=
  ⟨fun I => I.wf, fun ⟨_, _, R⟩ => R.invariant⟩

end LinkedList

/-! ## The container behind a `List<T>&` -/

namespace AnyList

variable {T : Type}

theorem size_any {c : AnyList T} {xs : List T} (h : c.Abs xs) : c.size = xs.length := by
  cases c with
  | array a => exact ArrayList.Abs.size_array h
  | linked l => exact LinkedList.Abs.size_linked h

theorem get_any {c : AnyList T} {xs : List T} (h : c.Abs xs) (i : Nat) :
    c.get i = listGet xs i := by
  cases c with
  | array a => exact ArrayList.Abs.get_array h i
  | linked l => exact LinkedList.Abs.get_linked h i

theorem set_any {c : AnyList T} {xs : List T} (h : c.Abs xs) {i : Nat} (v : T)
    (hi : i < xs.length) :
    (c.set i v).error = none ∧ (c.set i v).state.Abs (xs.set i v) := by
  cases c with
  | array a => exact ArrayList.Abs.set_array h v hi
  | linked l => exact LinkedList.Abs.set_linked h v hi

theorem readFrom_spec {c : AnyList T} {xs : List T} (h : c.Abs xs) :
    ∀ k i, i + k ≤ xs.length → c.readFrom k i = (xs.drop i).take k := by
  intro k
  induction k with
  | zero => intro i _; rfl
  | succ k ih =>
    intro i hi
    have hlt : i < xs.length := by omega
    rw [readFrom, get_any h, listGet_of_lt hlt]
    simp only []
    rw [ih (i + 1) (by omega), List.drop_eq_getElem_cons hlt, List.take_succ_cons]

theorem readFrom_all {c : AnyList T} {xs : List T} (h : c.Abs xs) :
    c.readFrom c.size 0 = xs := by
  rw [size_any h, readFrom_spec h xs.length 0 (by omega)]
  simp

theorem writeFrom_spec :
    ∀ (ys : List T) (c : AnyList T) (zs : List T) (i : Nat), c.Abs zs →
      i + ys.length ≤ zs.length →
      (c.writeFrom ys i).error = none ∧
        ∃ ws, (c.writeFrom ys i).state.Abs ws ∧ ws.length = zs.length ∧
          ∀ k, ws[k]? = if i ≤ k ∧ k < i + ys.length then ys[k - i]? else zs[k]? := by
  intro ys
  induction ys with
  | nil =>
    intro c zs i h _
    refine ⟨rfl, zs, h, rfl, fun k => ?_⟩
    rw [if_neg (by simp)]
  | cons y ys ih =>
    intro c zs i h hi
    have hlt : i < zs.length := by
      simp only [List.length_cons] at hi
      omega
    obtain ⟨e1, a1⟩ := set_any h y hlt
    have hset : c.set i y = ⟨none, (c.set i y).state⟩ := by
      cases hh : c.set i y with
      | mk err st =>
        rw [hh] at e1
        simp only at e1
        rw [e1]
    have hw : c.writeFrom (y :: ys) i = (c.set i y).state.writeFrom ys (i + 1) := by
      rw [writeFrom, hset]
    obtain ⟨e2, ws, a2, l2, g2⟩ := ih (c.set i y).state (zs.set i y) (i + 1) a1 (by
      simp only [List.length_cons] at hi
      simp only [List.length_set]
      omega)
    rw [hw]
    refine ⟨e2, ws, a2, by simpa using l2, fun k => ?_⟩
    rw [g2 k, List.getElem?_set]
    simp only [List.length_cons]
    by_cases hk : i = k
    · subst hk
      have h1 : ¬ (i + 1 ≤ i ∧ i < i + 1 + ys.length) := by omega
      have h2 : i ≤ i ∧ i < i + (ys.length + 1) := by omega
      rw [if_neg h1, if_pos rfl, if_pos hlt, if_pos h2, Nat.sub_self]
      simp
    · by_cases hin : i + 1 ≤ k ∧ k < i + 1 + ys.length
      · have h2 : i ≤ k ∧ k < i + (ys.length + 1) := by omega
        have h3 : k - i = (k - (i + 1)) + 1 := by omega
        rw [if_pos hin, if_pos h2, h3]
        simp
      · have h2 : ¬ (i ≤ k ∧ k < i + (ys.length + 1)) := by omega
        rw [if_neg hin, if_neg hk, if_neg h2]

theorem writeFrom_all {c : AnyList T} {zs : List T} (h : c.Abs zs) (ys : List T)
    (hl : ys.length = zs.length) :
    (c.writeFrom ys 0).error = none ∧ (c.writeFrom ys 0).state.Abs ys := by
  obtain ⟨e, ws, a, l, g⟩ := writeFrom_spec ys c zs 0 h (by omega)
  have : ws = ys := by
    apply List.ext_getElem?
    intro k
    rw [g k]
    by_cases hk : k < ys.length
    · rw [if_pos (by omega)]
      simp
    · rw [if_neg (by omega), List.getElem?_eq_none (by omega),
        List.getElem?_eq_none (by omega)]
  rw [this] at a
  exact ⟨e, a⟩

end AnyList

/-! ## Strategies and the contract -/

theorem orderedBy_lessThan_iff (ys : List Nat) :
    OrderedBy lessThan ys ↔ ys.Sorted (· ≤ ·) := by
  unfold OrderedBy List.Sorted
  constructor
  · intro h
    exact h.imp (fun {a b} hab => by simpa [lessThan] using hab)
  · intro h
    exact h.imp (fun {a b} hab => by simpa [lessThan] using hab)

theorem ordered_perm_unique {xs ys zs : List Nat} (hy : ys.Perm xs) (hz : zs.Perm xs)
    (oy : OrderedBy lessThan ys) (oz : OrderedBy lessThan zs) : ys = zs :=
  List.eq_of_perm_of_sorted (hy.trans hz.symm) ((orderedBy_lessThan_iff ys).mp oy)
    ((orderedBy_lessThan_iff zs).mp oz)

theorem copySortStrategy_meets_contract : copySortStrategy.MeetsContract lessThan := by
  intro c xs h
  have hsort : copySortStrategy.sort c lessThan
      = c.writeFrom (xs.insertionSort (fun a b => lessThan b a = false)) 0 := by
    show c.writeFrom ((c.readFrom c.size 0).insertionSort _) 0 = _
    rw [AnyList.readFrom_all h]
  obtain ⟨e, a⟩ := AnyList.writeFrom_all h (xs.insertionSort (fun a b => lessThan b a = false))
    (List.length_insertionSort _ xs)
  rw [hsort]
  refine ⟨e, _, a, List.perm_insertionSort _ xs, ?_⟩
  have htotal : IsTotal Nat (fun a b => lessThan b a = false) :=
    ⟨fun a b => by simp only [lessThan, decide_eq_false_iff_not]; omega⟩
  have htrans : IsTrans Nat (fun a b => lessThan b a = false) :=
    ⟨fun a b c hab hbc => by
      simp only [lessThan, decide_eq_false_iff_not] at hab hbc ⊢
      omega⟩
  exact List.sorted_insertionSort _ xs

theorem unsortedArray_abs : unsortedArray.Abs [5, 3, 4, 1, 2] :=
  ArrayList.Abs.new_array.addAll_array _

theorem unsortedLinked_abs : unsortedLinked.Abs [5, 3, 4, 1, 2] :=
  LinkedList.Abs.new_linked.addAll_linked _

theorem ArrayList.call_wf {T : Type} [Inhabited T] {s : ArrayList T} (h : s.WF) (c : Call T) :
    (s.call c).2.WF :=
  (ArrayList.call_refines_array (ArrayList.Abs.of_WF_array h) c).2.1

theorem LinkedList.call_invariant {T : Type} {s : LinkedList T} (h : s.Invariant)
    (c : Call T) : (s.call c).2.Invariant := by
  obtain ⟨xs, hA⟩ := LinkedList.Abs.of_WF_linked h.wf
  obtain ⟨addrs, R⟩ := (LinkedList.call_refines_linked hA c).2
  exact R.invariant

/-! ## The claims, continued -/

/-- C11: with a strategy `s` installed, `TextAnalyzer::sort(c, cmp)` leaves exactly the
container state and the failure (if any) that `s.sort(c, cmp)` produces, with the container
and the comparator passed through unchanged; it writes no diagnostic and does not touch the
analyzer. -/
theorem C11_sort_delegates_to_installed_strategy {E : Type} (a : TextAnalyzer E)
    (s : SortingAlgorithm E) (c : AnyList E) (cmp : E → E → Bool)
    (h : a.sortStrategy = some s) :
    (a.sort c cmp).entityList = (s.sort c cmp).state ∧
    (a.sort c cmp).error = (s.sort c cmp).error ∧
    (a.sort c cmp).diagnostics = [] ∧
    (a.sort c cmp).analyzer = a := by
  have e : a.sort c cmp = ⟨a, (s.sort c cmp).state, (s.sort c cmp).error, []⟩ := by
    simp only [TextAnalyzer.sort, h]
  rw [e]
  exact ⟨rfl, rfl, rfl, rfl⟩

/-- Witness of C11: `sampleAnalyzer` (strategy `copySortStrategy`) on `unsortedArray`. -/
theorem C11_witness :
    sampleAnalyzer.sortStrategy = some copySortStrategy ∧
      (sampleAnalyzer.sort (.array unsortedArray) lessThan).entityList
        = (copySortStrategy.sort (.array unsortedArray) lessThan).state :=
  ⟨rfl, (C11_sort_delegates_to_installed_strategy sampleAnalyzer copySortStrategy
    (.array unsortedArray) lessThan rfl).1⟩

/-- C12 as stated fails: after `setSortStrategy` with a null handle on an analyzer that had
a strategy, no strategy is installed and the following `sort` takes the diagnostic branch
and leaves the container as it was. -/
theorem C12_counterexample :
    (sampleAnalyzer.setSortStrategy none).strategyInstalled = false ∧
      ((sampleAnalyzer.setSortStrategy none).sort (.array unsortedArray) lessThan).diagnostics
        = ["Error: Sorting strategy is not set!"] ∧
      ((sampleAnalyzer.setSortStrategy none).sort (.array unsortedArray) lessThan).entityList
        = .array unsortedArray :=
  ⟨rfl, rfl, rfl⟩

/-- C12 (amended): from every analyzer state, `setSortStrategy` with a non-null strategy
leaves the analyzer in the state "strategy installed": the following `sort` produces exactly
what the new strategy produces, whatever was installed before, and writes no diagnostic.
With a null handle it leaves the analyzer in the state "no strategy installed": the following
`sort` takes the diagnostic branch and leaves the container unchanged. -/
theorem C12_setSortStrategy_replaces_strategy {E : Type} (a : TextAnalyzer E)
    (strategy : SortingAlgorithm E) (c : AnyList E) (cmp : E → E → Bool) :
    ((a.setSortStrategy (some strategy)).strategyInstalled = true ∧
      (a.setSortStrategy (some strategy)).sortStrategy = some strategy ∧
      ((a.setSortStrategy (some strategy)).sort c cmp).entityList = (strategy.sort c cmp).state ∧
      ((a.setSortStrategy (some strategy)).sort c cmp).error = (strategy.sort c cmp).error ∧
      ((a.setSortStrategy (some strategy)).sort c cmp).diagnostics = []) ∧
    ((a.setSortStrategy none).strategyInstalled = false ∧
      ((a.setSortStrategy none).sort c cmp).entityList = c ∧
      ((a.setSortStrategy none).sort c cmp).error = none ∧
      ((a.setSortStrategy none).sort c cmp).diagnostics
        = ["Error: Sorting strategy is not set!"]) :=
  ⟨⟨rfl, rfl, rfl, rfl, rfl⟩, ⟨rfl, rfl, rfl, rfl⟩⟩

/-- C13: for every document (and every `maxWordCount`), `checkImageCaptions` and
`findLongSentences` return an empty collection, whatever the analyzer's strategy state. -/
theorem C13_rule_checks_return_empty {E Doc : Type} (a : TextAnalyzer E) (doc : Doc)
    (maxWordCount : Nat) :
    a.checkImageCaptions doc = [] ∧ a.findLongSentences doc maxWordCount = [] :=
  ⟨rfl, rfl⟩

/-- C14: on an `ArrayList` satisfying the class invariant (`currentSize ≤ capacity`),
`add(x)` changes the capacity iff `currentSize = capacity` before the call; the new capacity
is then 10 when the old one is 0 and twice the old one otherwise; when
`currentSize < capacity` the capacity is unchanged.  In both cases the first `currentSize`
elements are preserved and `x` is at index `currentSize`. -/
theorem C14_add_reallocates_only_when_full {T : Type} [Inhabited T] (s : ArrayList T) (x : T)
    (h : s.WF) :
    ((s.add x).state.capacity ≠ s.capacity ↔ s.currentSize = s.capacity) ∧
    (s.currentSize = s.capacity →
      (s.add x).state.capacity = if s.capacity = 0 then 10 else s.capacity * 2) ∧
    (s.currentSize < s.capacity → (s.add x).state.capacity = s.capacity) ∧
    (∀ i, i < s.size → (s.add x).state.get i = s.get i) ∧
    (s.add x).state.get s.size = .ok x := by
  obtain ⟨_, hw, hl, _, hcap⟩ := ArrayList.add_spec h x
  have hA := ArrayList.Abs.of_WF_array h
  have hA1 : (s.add x).state.Abs (s.toList ++ [x]) := ⟨hw, hl⟩
  have hle := h.1
  refine ⟨?_, ?_, ?_, ?_, ?_⟩
  · rw [hcap]
    constructor
    · intro hne
      by_contra hlt
      have : ¬ (s.currentSize ≥ s.capacity) := by omega
      rw [if_neg this] at hne
      exact hne rfl
    · intro heq
      have : s.currentSize ≥ s.capacity := by omega
      rw [if_pos this]
      split <;> omega
  · intro heq
    rw [hcap, if_pos (by omega)]
  · intro hlt
    rw [hcap, if_neg (by omega)]
  · intro i hi
    rw [hA.size_array] at hi
    rw [hA1.get_array, hA.get_array, listGet_append_lt _ _ hi]
  · rw [hA1.get_array, hA.size_array, listGet_append_last]

/-- Witness of C14: the state before the constructor body (`capacity = 0`), where `add`
allocates 10 slots. -/
theorem C14_witness :
    (ArrayList.init : ArrayList Nat).WF ∧
      ((ArrayList.init : ArrayList Nat).add 7).state.capacity
        = (if (ArrayList.init : ArrayList Nat).capacity = 0 then 10
           else (ArrayList.init : ArrayList Nat).capacity * 2) :=
  ⟨by decide, (C14_add_reallocates_only_when_full ArrayList.init 7 (by decide)).2.1 rfl⟩

/-- C15: the `ArrayList` invariant `0 ≤ currentSize ≤ capacity` (with `data` an allocation of
`capacity` slots) holds for a freshly constructed object and is preserved by every call
(`add`, `get`, `set`, `remove`, `swap`), whether it returns normally or throws
`out_of_range`; hence it holds after every sequence of calls, and every index below
`currentSize` addresses a slot inside the allocated buffer. -/
theorem C15_array_invariant_is_preserved {T : Type} [Inhabited T] :
    (ArrayList.new : ArrayList T).WF ∧
    (∀ (s : ArrayList T) (c : Call T), s.WF → (s.call c).2.WF) ∧
    (∀ calls : List (Call T),
      ((ArrayList.new : ArrayList T).run calls).2.currentSize
        ≤ ((ArrayList.new : ArrayList T).run calls).2.capacity) ∧
    (∀ (calls : List (Call T)) (i : Nat),
      i < ((ArrayList.new : ArrayList T).run calls).2.currentSize →
      i < ((ArrayList.new : ArrayList T).run calls).2.data.length) := by
  have hrun : ∀ calls : List (Call T), ((ArrayList.new : ArrayList T).run calls).2.WF :=
    fun calls => (ArrayList.run_refines_array calls (ArrayList.Abs.new_array (T := T))).2.1
  refine ⟨ArrayList.Abs.new_array.1, fun s c h => ArrayList.call_wf h c,
    fun calls => (hrun calls).1, fun calls i hi => ?_⟩
  rw [(hrun calls).2]
  exact lt_of_lt_of_le hi (hrun calls).1

/-- C16: the structural invariant of `LinkedList` (`head`/`tail` null iff `count` is 0; the
`next` chain from `head` has exactly `count` live nodes and ends at `tail`, whose `next` is
null; the `prev` of `head` is null; `n.prev.next == n` and `n.next.prev == n` wherever the
link exists) holds for a freshly constructed object and is preserved by every call (`add`,
`get`, `set`, `remove`, the inherited `swap`), whether it returns normally or throws; hence
it holds after every sequence of calls. -/
theorem C16_linked_invariant_is_preserved {T : Type} :
    (LinkedList.new : LinkedList T).Invariant ∧
    (∀ (s : LinkedList T) (c : Call T), s.Invariant → (s.call c).2.Invariant) ∧
    (∀ calls : List (Call T), ((LinkedList.new : LinkedList T).run calls).2.Invariant) := by
  refine ⟨LinkedList.Repr.new_repr.invariant, fun s c h => LinkedList.call_invariant h c,
    fun calls => ?_⟩
  obtain ⟨addrs, R⟩ :=
    (LinkedList.run_refines_linked calls (LinkedList.Abs.new_linked (T := T))).2
  exact R.invariant

/-- C17: on a well-formed `ArrayList` and a well-formed `LinkedList`, for valid indices
`i, j < size()` (also `i = j`), `swap(i, j)` returns normally; afterwards `get(i)` returns the
old `get(j)`, `get(j)` returns the old `get(i)`, `get(k)` is unchanged for every other `k`,
and `size()` is unchanged. -/
theorem C17_swap_exchanges_two_elements {T : Type} (a : ArrayList T) (l : LinkedList T)
    (ia ja il jl : Nat) (ha : a.WF) (hl : l.WF) (hia : ia < a.size) (hja : ja < a.size)
    (hil : il < l.size) (hjl : jl < l.size) :
    ((a.swap ia ja).error = none ∧
      (a.swap ia ja).state.get ia = a.get ja ∧ (a.swap ia ja).state.get ja = a.get ia ∧
      (∀ k, k ≠ ia → k ≠ ja → (a.swap ia ja).state.get k = a.get k) ∧
      (a.swap ia ja).state.size = a.size) ∧
    ((l.swap il jl).error = none ∧
      (l.swap il jl).state.get il = l.get jl ∧ (l.swap il jl).state.get jl = l.get il ∧
      (∀ k, k ≠ il → k ≠ jl → (l.swap il jl).state.get k = l.get k) ∧
      (l.swap il jl).state.size = l.size) := by
  have key : ∀ (xs : List T) (i j : Nat), i < xs.length → j < xs.length →
      listGet (listSwap xs i j) i = listGet xs j ∧ listGet (listSwap xs i j) j = listGet xs i ∧
      ∀ k, k ≠ i → k ≠ j → listGet (listSwap xs i j) k = listGet xs k := by
    intro xs i j hi hj
    refine ⟨listGet_congr ?_, listGet_congr ?_, fun k hki hkj => listGet_congr ?_⟩
    · rw [getElem?_listSwap hi hj]
      by_cases hij : i = j
      · rw [if_pos hij, hij]
      · rw [if_neg hij, if_pos rfl]
    · rw [getElem?_listSwap hi hj, if_pos rfl]
    · rw [getElem?_listSwap hi hj, if_neg hkj, if_neg hki]
  have hA := ArrayList.Abs.of_WF_array ha
  obtain ⟨ys, hL⟩ := LinkedList.Abs.of_WF_linked hl
  rw [hA.size_array] at hia hja
  rw [hL.size_linked] at hil hjl
  obtain ⟨a1, a2⟩ := hA.swap_array hia hja
  obtain ⟨l1, l2⟩ := hL.swap_linked hil hjl
  obtain ⟨ka, kb, kc⟩ := key a.toList ia ja hia hja
  obtain ⟨la, lb, lc⟩ := key ys il jl hil hjl
  refine ⟨⟨a1, ?_, ?_, ?_, ?_⟩, ⟨l1, ?_, ?_, ?_, ?_⟩⟩
  · rw [a2.get_array, hA.get_array, ka]
  · rw [a2.get_array, hA.get_array, kb]
  · intro k h1 h2
    rw [a2.get_array, hA.get_array, kc k h1 h2]
  · rw [a2.size_array, hA.size_array, length_listSwap]
  · rw [l2.get_linked, hL.get_linked, la]
  · rw [l2.get_linked, hL.get_linked, lb]
  · intro k h1 h2
    rw [l2.get_linked, hL.get_linked, lc k h1 h2]
  · rw [l2.size_linked, hL.size_linked, length_listSwap]

/-- Witness of C17: `swap(0, 2)` on `sampleArray` and `swap(1, 1)` on `sampleLinked`. -/
theorem C17_witness :
    (sampleArray.WF ∧ sampleLinked.WF ∧ 0 < sampleArray.size ∧ 2 < sampleArray.size ∧
      1 < sampleLinked.size) ∧
      (sampleArray.swap 0 2).state.get 0 = sampleArray.get 2 ∧
      (sampleLinked.swap 1 1).state.get 1 = sampleLinked.get 1 :=
  ⟨⟨sampleArray_abs.1, sampleLinked_abs.WF, by decide, by decide, by decide⟩,
    (C17_swap_exchanges_two_elements sampleArray sampleLinked 0 2 1 1 sampleArray_abs.1
      sampleLinked_abs.WF (by decide) (by decide) (by decide) (by decide)).1.2.1,
    (C17_swap_exchanges_two_elements sampleArray sampleLinked 0 2 1 1 sampleArray_abs.1
      sampleLinked_abs.WF (by decide) (by decide) (by decide) (by decide)).2.2.1⟩

/-- C18: on a well-formed `ArrayList`, `ArrayList::swap` and the inherited `List::swap`
(`temp = get(i); set(i, get(j)); set(j, temp)`) run on the same state are observably
identical for every pair of indices, valid or not: they throw `out_of_range` in exactly the
same cases (the same outcome in every case), and leave the same `size()` and the same
`get(k)` for every `k`. -/
theorem C18_array_swap_matches_default_swap {T : Type} (a : ArrayList T) (i j : Nat)
    (ha : a.WF) :
    (a.swap i j).error = (a.defaultSwap i j).error ∧
    ((a.swap i j).error = some .out_of_range ↔ (i ≥ a.size ∨ j ≥ a.size)) ∧
    ((a.defaultSwap i j).error = some .out_of_range ↔ (i ≥ a.size ∨ j ≥ a.size)) ∧
    (a.swap i j).state.size = (a.defaultSwap i j).state.size ∧
    ∀ k, (a.swap i j).state.get k = (a.defaultSwap i j).state.get k := by
  have hA := ArrayList.Abs.of_WF_array ha
  by_cases hinv : i ≥ a.size ∨ j ≥ a.size
  · have e1 : a.swap i j = ⟨some .out_of_range, a⟩ := ArrayList.swap_out_of_range_array a hinv
    have e2 : a.defaultSwap i j = ⟨some .out_of_range, a⟩ :=
      AbstractList.swap_throws _ _ _ a hinv
    rw [e1, e2]
    exact ⟨rfl, ⟨fun _ => hinv, fun _ => rfl⟩, ⟨fun _ => hinv, fun _ => rfl⟩, rfl, fun _ => rfl⟩
  · have h1 : i < a.toList.length := by rw [← hA.size_array]; omega
    have h2 : j < a.toList.length := by rw [← hA.size_array]; omega
    obtain ⟨s1, s2⟩ := hA.swap_array h1 h2
    obtain ⟨d1, d2⟩ := hA.defaultSwap h1 h2
    refine ⟨by rw [s1, d1], ?_, ?_, by rw [s2.size_array, d2.size_array], fun k => ?_⟩
    · rw [s1]
      exact ⟨fun h => by simp at h, fun h => absurd h hinv⟩
    · rw [d1]
      exact ⟨fun h => by simp at h, fun h => absurd h hinv⟩
    · rw [s2.get_array, d2.get_array]

/-- Witness of C18: `swap(0, 2)` on `sampleArray`. -/
theorem C18_witness :
    sampleArray.WF ∧
      (sampleArray.swap 0 2).state.size = (sampleArray.defaultSwap 0 2).state.size ∧
      (sampleArray.swap 0 2).state.get 0 = (sampleArray.defaultSwap 0 2).state.get 0 :=
  ⟨sampleArray_abs.1,
    (C18_array_swap_matches_default_swap sampleArray 0 2 sampleArray_abs.1).2.2.2.1,
    (C18_array_swap_matches_default_swap sampleArray 0 2 sampleArray_abs.1).2.2.2.2 0⟩

/-- C19: let a strategy that meets the `SortingStrategy` contract for the comparator `a < b`
be installed.  Then `TextAnalyzer::sort` with that comparator returns normally and turns a
container holding `[5,3,4,1,2]` into one holding `[1,2,3,4,5]`, and leaves a container
holding `[1]` or `[]` with the same content; the containers are of either backing. -/
theorem C19_sort_orders_the_sample_lists (a : TextAnalyzer Nat) (strategy : SortingAlgorithm Nat)
    (c5 c1 c0 : AnyList Nat) (hs : a.sortStrategy = some strategy)
    (hc : strategy.MeetsContract lessThan)
    (h5 : c5.Abs [5, 3, 4, 1, 2]) (h1 : c1.Abs [1]) (h0 : c0.Abs []) :
    ((a.sort c5 lessThan).error = none ∧ (a.sort c5 lessThan).entityList.Abs [1, 2, 3, 4, 5] ∧
      (a.sort c5 lessThan).entityList.size = 5 ∧
      ∀ i, (a.sort c5 lessThan).entityList.get i = listGet [1, 2, 3, 4, 5] i) ∧
    ((a.sort c1 lessThan).error = none ∧ (a.sort c1 lessThan).entityList.Abs [1] ∧
      (a.sort c1 lessThan).entityList.size = c1.size ∧
      ∀ i, (a.sort c1 lessThan).entityList.get i = c1.get i) ∧
    ((a.sort c0 lessThan).error = none ∧ (a.sort c0 lessThan).entityList.Abs [] ∧
      (a.sort c0 lessThan).entityList.size = c0.size ∧
      ∀ i, (a.sort c0 lessThan).entityList.get i = c0.get i) := by
  have key : ∀ (c : AnyList Nat) (xs zs : List Nat), c.Abs xs → zs.Perm xs →
      OrderedBy lessThan zs →
      (a.sort c lessThan).error = none ∧ (a.sort c lessThan).entityList.Abs zs := by
    intro c xs zs h hz oz
    have e : a.sort c lessThan
        = ⟨a, (strategy.sort c lessThan).state, (strategy.sort c lessThan).error, []⟩ := by
      simp only [TextAnalyzer.sort, hs]
    obtain ⟨e1, ys, a1, p1, o1⟩ := hc c xs h
    rw [e]
    refine ⟨e1, ?_⟩
    show (strategy.sort c lessThan).state.Abs zs
    rw [← ordered_perm_unique p1 hz o1 oz]
    exact a1
  obtain ⟨k5, a5⟩ := key c5 _ [1, 2, 3, 4, 5] h5 (by decide)
    ((orderedBy_lessThan_iff _).mpr (by decide))
  obtain ⟨k1, a1⟩ := key c1 _ [1] h1 (List.Perm.refl _)
    ((orderedBy_lessThan_iff _).mpr (by decide))
  obtain ⟨k0, a0⟩ := key c0 _ [] h0 (List.Perm.refl _)
    ((orderedBy_lessThan_iff _).mpr (by decide))
  refine ⟨⟨k5, a5, ?_, fun i => ?_⟩, ⟨k1, a1, ?_, fun i => ?_⟩, ⟨k0, a0, ?_, fun i => ?_⟩⟩
  · rw [AnyList.size_any a5]
    rfl
  · rw [AnyList.get_any a5]
  · rw [AnyList.size_any a1, AnyList.size_any h1]
  · rw [AnyList.get_any a1, AnyList.get_any h1]
  · rw [AnyList.size_any a0, AnyList.size_any h0]
  · rw [AnyList.get_any a0, AnyList.get_any h0]

/-- Witness of C19: `sampleAnalyzer` with `copySortStrategy`, on an `ArrayList` holding
`[5,3,4,1,2]`, a `LinkedList` holding `[1]` and an empty `ArrayList`. -/
theorem C19_witness :
    (sampleAnalyzer.sortStrategy = some copySortStrategy ∧
      copySortStrategy.MeetsContract lessThan ∧
      (AnyList.array unsortedArray).Abs [5, 3, 4, 1, 2] ∧
      (AnyList.linked (LinkedList.addAll LinkedList.new [1])).Abs [1] ∧
      (AnyList.array (ArrayList.new : ArrayList Nat)).Abs []) ∧
      (sampleAnalyzer.sort (.array unsortedArray) lessThan).entityList.Abs [1, 2, 3, 4, 5] :=
  ⟨⟨rfl, copySortStrategy_meets_contract, unsortedArray_abs,
      LinkedList.Abs.new_linked.addAll_linked [1], ArrayList.Abs.new_array⟩,
    (C19_sort_orders_the_sample_lists sampleAnalyzer copySortStrategy (.array unsortedArray)
      (.linked (LinkedList.addAll LinkedList.new [1])) (.array ArrayList.new) rfl
      copySortStrategy_meets_contract unsortedArray_abs
      (LinkedList.Abs.new_linked.addAll_linked [1]) ArrayList.Abs.new_array).1.2.1⟩

/-- C20: on a well-formed `ArrayList` and a well-formed `LinkedList`, for a valid index
`i < size()`, a `set(i, v)` changes nothing but position `i`: it returns normally, `size()` is
unchanged, `get(k)` returns what it returned before for every `k ≠ i`, and on `ArrayList` the
capacity is unchanged. -/
theorem C20_set_touches_one_position {T : Type} (a : ArrayList T) (l : LinkedList T)
    (ia il : Nat) (v : T) (ha : a.WF) (hl : l.WF) (hia : ia < a.size) (hil : il < l.size) :
    ((a.set ia v).error = none ∧ (a.set ia v).state.size = a.size ∧
      (∀ k, k ≠ ia → (a.set ia v).state.get k = a.get k) ∧
      (a.set ia v).state.capacity = a.capacity) ∧
    ((l.set il v).error = none ∧ (l.set il v).state.size = l.size ∧
      (∀ k, k ≠ il → (l.set il v).state.get k = l.get k)) := by
  have hA := ArrayList.Abs.of_WF_array ha
  obtain ⟨ys, hL⟩ := LinkedList.Abs.of_WF_linked hl
  obtain ⟨_, _, _, _, hcap⟩ := ArrayList.set_spec ha hia v
  rw [hA.size_array] at hia
  rw [hL.size_linked] at hil
  obtain ⟨a1, a2⟩ := hA.set_array v hia
  obtain ⟨l1, l2⟩ := hL.set_linked v hil
  refine ⟨⟨a1, ?_, ?_, hcap⟩, ⟨l1, ?_, ?_⟩⟩
  · rw [a2.size_array, hA.size_array, List.length_set]
  · intro k hk
    rw [a2.get_array, hA.get_array, listGet_set_ne _ _ (Ne.symm hk)]
  · rw [l2.size_linked, hL.size_linked, List.length_set]
  · intro k hk
    rw [l2.get_linked, hL.get_linked, listGet_set_ne _ _ (Ne.symm hk)]

/-- Witness of C20: `set(1, 9)` on `sampleArray` and `set(2, 9)` on `sampleLinked`. -/
theorem C20_witness :
    (sampleArray.WF ∧ sampleLinked.WF ∧ 1 < sampleArray.size ∧ 2 < sampleLinked.size) ∧
      (sampleArray.set 1 9).state.capacity = sampleArray.capacity ∧
      (sampleLinked.set 2 9).state.get 0 = sampleLinked.get 0 :=
  ⟨⟨sampleArray_abs.1, sampleLinked_abs.WF, by decide, by decide⟩,
    (C20_set_touches_one_position sampleArray sampleLinked 1 2 9 sampleArray_abs.1
      sampleLinked_abs.WF (by decide) (by decide)).1.2.2.2,
    (C20_set_touches_one_position sampleArray sampleLinked 1 2 9 sampleArray_abs.1
      sampleLinked_abs.WF (by decide) (by decide)).2.2.2 0 (by decide)⟩

end Lab1
